import Mathlib

/-
Verification of the backup-cli directory-synchronization engine.

The Python source operates on a POSIX filesystem through pathlib / os /
shutil.  We shallow-embed the filesystem state that one run touches:

  * a directory's contents are an association list of (name, node);
  * a node is a regular file (st_size, st_mtime, content), a symbolic
    link (its literal target string), or a directory;
  * symlink targets name siblings in the same directory, which is the
    shape this repository's own fixture generator produces
    (src/seed.py and src/tree_generator/random_tree_generator.py create
    links via os.path.relpath inside one directory, i.e. a bare sibling
    file name); resolution follows chains with fuel, a cycle behaving
    like ELOOP (the path does not exist for pathlib's exists / is_file /
    is_dir, which swallow ELOOP);
  * a directory's stat is modelled as never equal to a regular file's
    stat (st_size of a directory is a block count such as 4096, not the
    byte length of any source file under comparison);
  * uncaught Python exceptions are modelled as Except.error, so an
    aborted run is distinguishable from a completed one.

Logging (src/logger.py ColoredLogger) renders messages; the engine only
emits one event per classified decision, so events are modelled as a
structured type with one constructor per distinct log call site in the
backup classes.
-/

namespace BackupCLI

/-- A path relative to one of the two roots, as a list of entry names. -/
abbrev FPath := List String

/-- One filesystem object: regular file (st_size, st_mtime, content tag),
symbolic link (literal target string), or directory with named children. -/
inductive FSNode where
  | file (size mtime data : Nat)
  | link (target : String)
  | dir (children : List (String × FSNode))
deriving Repr

/-- Contents of one directory: an association list of (entry name, node). -/
abbrev Cs := List (String × FSNode)

/-- Entry of a directory by name (lstat-level: a symlink is returned as
itself, never followed). -/
def lookupCs : Cs → String → Option FSNode
  | [], _ => none
  | (m, e) :: rest, n => if m = n then some e else lookupCs rest n

/-- Overwrite the binding of a name, appending a fresh binding at the end
when the name is new (a newly created entry appears after the existing
ones). -/
def setCs : Cs → String → FSNode → Cs
  | [], n, v => [(n, v)]
  | (m, e) :: rest, n, v =>
    if m = n then (m, v) :: rest else (m, e) :: setCs rest n v

/-- Drop the binding of a name (the entry itself; a symlink is unlinked,
not its target). -/
def removeCs : Cs → String → Cs
  | [], _ => []
  | (m, e) :: rest, n => if m = n then rest else (m, e) :: removeCs rest n

/-- Follow a chain of sibling-name symlinks starting from a name, with
fuel; the result is the final name together with its entry (none when the
chain dangles).  Exhausted fuel models ELOOP. -/
def followAux (cs : Cs) : Nat → String → Option (String × Option FSNode)
  | 0, _ => none
  | fuel + 1, n =>
    match lookupCs cs n with
    | some (.link t) => followAux cs fuel t
    | e => some (n, e)

/-- Resolve a name in a directory through any chain of sibling symlinks;
one step more than the number of entries suffices for every acyclic
chain, so running out means a cycle (ELOOP). -/
def follow (cs : Cs) (n : String) : Option (String × Option FSNode) :=
  followAux cs (cs.length + 1) n

/-- pathlib Path.exists of an entry name: stat follows symlinks; ELOOP,
a dangling link and a missing entry all report False. -/
def existsRes (cs : Cs) (n : String) : Bool :=
  match follow cs n with
  | some (_, some _) => true
  | _ => false

/-- pathlib Path.is_file of an entry name (follows symlinks). -/
def isFileRes (cs : Cs) (n : String) : Bool :=
  match follow cs n with
  | some (_, some (.file _ _ _)) => true
  | _ => false

/-- pathlib Path.is_dir of an entry name (follows symlinks). -/
def isDirRes (cs : Cs) (n : String) : Bool :=
  match follow cs n with
  | some (_, some (.dir _)) => true
  | _ => false

/-- stat().st_size and stat().st_mtime of an entry name, following
symlinks; none when the resolved object is not a regular file (for a
directory the caller compares against a file's stat, modelled as always
unequal, see the header comment). -/
def statRes (cs : Cs) (n : String) : Option (Nat × Nat) :=
  match follow cs n with
  | some (_, some (.file s m _)) => some (s, m)
  | _ => none

/-- The change detector shared by Backup.copy_file and
IncrementalBackup.__copy_file: copy when the destination does not exist,
or its size differs from the source size, or its mtime differs from the
source mtime; otherwise skip.  Direct translation of
  not destination_file_path.exists() or (
    source_file.stat().st_size != destination_file_path.stat().st_size
    or source_file.stat().st_mtime != destination_file_path.stat().st_mtime) -/
def shouldCopy (srcSize srcMtime : Nat) (dst : Cs) (n : String) : Bool :=
  !existsRes dst n ||
    (match statRes dst n with
     | some (dsz, dmt) => srcSize != dsz || srcMtime != dmt
     | none => true)

/-- One log event per log call site in the three backup classes. -/
inductive Ev where
  | infoCopying
  | errorMkdirFailed (d : FPath)
  | errorSourceMissing (s : FPath)
  | copyLink (s d : FPath)
  | skipLinkExists (s : FPath)
  | copyFile (s d : FPath)
  | skipUnchanged (s : FPath)
  | infoIsLink (s : FPath)
  | delete (d : FPath)
deriving Repr, DecidableEq

/-- An uncaught Python exception aborting the run. -/
inductive Err where
  | fileExists
  | readlinkNotLink
  | isADirectory
  | enoent
  | notADirectory
  | loop
  | intoDirConflict
  | fuel
deriving Repr, DecidableEq

/-- Entry names of a directory's contents. -/
def keys (cs : Cs) : List String := cs.map Prod.fst

/-- os.remove of an entry name: unlinks the entry itself (a symlink is
removed, not its target); IsADirectoryError on a directory, FileNotFound
on a missing name. -/
def osRemove (cs : Cs) (n : String) : Except Err Cs :=
  match lookupCs cs n with
  | some (.dir _) => .error .isADirectory
  | some _ => .ok (removeCs cs n)
  | none => .error .enoent

/-- Destination placement of shutil.copy2(source_file, dst): create when
absent, overwrite a regular file, follow a final symlink chain (writing
through a dangling link creates the target), and when dst is a directory
copy to dst slash source name inside it.  A second-level collision
(the inner slot holding a directory or link) raises, modelled as an
error. -/
def copy2At (dst : Cs) (n : String) (f : FSNode) : Except Err Cs :=
  match follow dst n with
  | none => .error .loop
  | some (r, none) => .ok (setCs dst r f)
  | some (r, some (.file _ _ _)) => .ok (setCs dst r f)
  | some (r, some (.dir inner)) =>
    match lookupCs inner n with
    | none => .ok (setCs dst r (.dir (setCs inner n f)))
    | some (.file _ _ _) => .ok (setCs dst r (.dir (setCs inner n f)))
    | some _ => .error .intoDirConflict
  | some (_, some (.link _)) => .error .loop

/-- Backup.copy_file (src/backup/backup.py), the per-entry routine of the
base class, which is the full strategy's behavior: missing source logged
and skipped; a source symlink is re-created at the destination, a
FileExistsError (any entry already present at that name, os.symlink does
not follow) caught and logged as a skip; a source regular file goes
through the change detector, copied with metadata via shutil.copy2 or
logged as unchanged; anything else (a directory) falls through the
if/elif with no action and no log. -/
def copyFileB (sp dp : FPath) (srcSibs : Cs) (n : String) (dst : Cs) :
    Except Err (Cs × List Ev) :=
  if !existsRes srcSibs n then
    .ok (dst, [.errorSourceMissing (sp ++ [n])])
  else
    match lookupCs srcSibs n with
    | some (.link t) =>
      (match lookupCs dst n with
       | some _ => .ok (dst, [.skipLinkExists (sp ++ [n])])
       | none =>
         .ok (setCs dst n (.link t), [.copyLink (sp ++ [n]) (dp ++ [n])]))
    | some (.file s m d) =>
      if shouldCopy s m dst n then
        (copy2At dst n (.file s m d)).map
          (fun dst1 => (dst1, [.copyFile (sp ++ [n]) (dp ++ [n])]))
      else .ok (dst, [.skipUnchanged (sp ++ [n])])
    | some (.dir _) => .ok (dst, [])
    | none => .ok (dst, [])

/-- IncrementalBackup.__copy_file (src/backup/incremental_backup.py):
identical to the base routine except in the symlink branch, where an
existing destination (by resolved existence) is readlink'd, removed when
its target differs, and then the link is re-created; os.readlink on a
non-link raises OSError which the except FileExistsError does not catch;
a creation that still collides (same target, or a dangling entry that
exists() reported absent) is caught and logged as a skip. -/
def copyFileI (sp dp : FPath) (srcSibs : Cs) (n : String) (dst : Cs) :
    Except Err (Cs × List Ev) :=
  if !existsRes srcSibs n then
    .ok (dst, [.errorSourceMissing (sp ++ [n])])
  else
    match lookupCs srcSibs n with
    | some (.link t) =>
      if existsRes dst n then
        match lookupCs dst n with
        | some (.link t2) =>
          if t2 != t then
            .ok (setCs (removeCs dst n) n (.link t),
                 [.copyLink (sp ++ [n]) (dp ++ [n])])
          else .ok (dst, [.skipLinkExists (sp ++ [n])])
        | some _ => .error .readlinkNotLink
        | none => .error .readlinkNotLink
      else
        match lookupCs dst n with
        | some _ => .ok (dst, [.skipLinkExists (sp ++ [n])])
        | none =>
          .ok (setCs dst n (.link t), [.copyLink (sp ++ [n]) (dp ++ [n])])
    | some (.file s m d) =>
      if shouldCopy s m dst n then
        (copy2At dst n (.file s m d)).map
          (fun dst1 => (dst1, [.copyFile (sp ++ [n]) (dp ++ [n])]))
      else .ok (dst, [.skipUnchanged (sp ++ [n])])
    | some (.dir _) => .ok (dst, [])
    | none => .ok (dst, [])

/-- MirrorBackup.__copy_file (src/backup/mirror_backup.py): a source
symlink is logged, any existing destination (by resolved existence)
os.remove'd (IsADirectoryError on a directory is uncaught), then the link
is created with no try/except, so a FileExistsError from an entry that
exists() reported absent (a dangling link) propagates and aborts the run;
a source regular file is shutil.copy2'd unconditionally, with no change
detection. -/
def copyFileM (sp dp : FPath) (srcSibs : Cs) (n : String) (dst : Cs) :
    Except Err (Cs × List Ev) :=
  if !existsRes srcSibs n then
    .ok (dst, [.errorSourceMissing (sp ++ [n])])
  else
    match lookupCs srcSibs n with
    | some (.link t) =>
      if existsRes dst n then
        match osRemove dst n with
        | .error e => .error e
        | .ok dst1 =>
          .ok (setCs dst1 n (.link t),
               [.infoIsLink (sp ++ [n]), .copyLink (sp ++ [n]) (dp ++ [n])])
      else
        match lookupCs dst n with
        | some _ => .error .fileExists
        | none =>
          .ok (setCs dst n (.link t),
               [.infoIsLink (sp ++ [n]), .copyLink (sp ++ [n]) (dp ++ [n])])
    | some (.file s m d) =>
      (copy2At dst n (.file s m d)).map
        (fun dst1 => (dst1, [.copyFile (sp ++ [n]) (dp ++ [n])]))
    | some (.dir _) => .ok (dst, [])
    | none => .ok (dst, [])

/-- create_directory: Path.mkdir(parents=True, exist_ok=True) on a
destination slot with OSError caught and logged; an existing directory is
kept, a missing slot becomes an empty directory, and any other occupant
(file, symlink treated at the entry level) raises FileExistsError, which
is logged as the creation having failed while the occupant stays. -/
def createDirectory (dp : FPath) (slot : Option FSNode) : FSNode × List Ev :=
  match slot with
  | none => (.dir [], [])
  | some (.dir cs) => (.dir cs, [])
  | some e => (e, [.errorMkdirFailed dp])

/-- True when a source subtree consists of directories only: against a
non-directory destination slot such a subtree generates only logged mkdir
failures (copy_file falls through for directories), while any file or
link child would crash on an operation below a non-directory. -/
def noCopyableEntries : Cs → Bool
  | [] => true
  | (_, .dir sub) :: rest => noCopyableEntries sub && noCopyableEntries rest
  | _ => false

/-- The log trace of recursing a directories-only source subtree against
destination paths below a non-directory: each level logs its copying
banner and a failed directory creation. -/
def badEvents : Cs → FPath → List Ev
  | [], _ => []
  | (n, .dir sub) :: rest, dp =>
    (.infoCopying :: .errorMkdirFailed (dp ++ [n]) :: badEvents sub (dp ++ [n]))
      ++ badEvents rest dp
  | _ :: rest, dp => badEvents rest dp

/-- The per-level loop of __copy_files: for each source entry run the
per-entry routine, then recurse when source_file.is_dir() holds (which
follows symlinks, so a link resolving to a sibling directory is both
copied as a link and traversed); the destination child slot is resolved
through any symlink sitting at it, since the filesystem writes of the
recursive call go through that link.  The recursion into a subdirectory
is abstracted as the recurse argument (one less unit of fuel). -/
def copyLoop (cf : FPath → FPath → Cs → String → Cs → Except Err (Cs × List Ev))
    (recurse : FPath → FPath → Cs → Option FSNode → Except Err (FSNode × List Ev))
    (sp dp : FPath) (srcAll : Cs) : Cs → Cs → Except Err (Cs × List Ev)
  | [], dcs => .ok (dcs, [])
  | (n, _) :: rest, dcs => do
    let p1 ← cf sp dp srcAll n dcs
    match follow srcAll n with
    | some (_, some (.dir sub)) =>
      (match lookupCs p1.1 n with
       | some (.link _) =>
         (match follow p1.1 n with
          | none => .error .loop
          | some (_, none) =>
            (match sub with
             | [] => do
               let p2 ← copyLoop cf recurse sp dp srcAll rest p1.1
               .ok (p2.1,
                 p1.2 ++ [.infoCopying, .errorMkdirFailed (dp ++ [n])] ++ p2.2)
             | _ => .error .enoent)
          | some (r, some eR) => do
            let p2 ← recurse (sp ++ [n]) (dp ++ [n]) sub (some eR)
            let p3 ← copyLoop cf recurse sp dp srcAll rest (setCs p1.1 r p2.1)
            .ok (p3.1, p1.2 ++ p2.2 ++ p3.2))
       | slotN => do
         let p2 ← recurse (sp ++ [n]) (dp ++ [n]) sub slotN
         let p3 ← copyLoop cf recurse sp dp srcAll rest (setCs p1.1 n p2.1)
         .ok (p3.1, p1.2 ++ p2.2 ++ p3.2))
    | _ => do
      let p2 ← copyLoop cf recurse sp dp srcAll rest p1.1
      .ok (p2.1, p1.2 ++ p2.2)

/-- The __copy_files recursion shared verbatim by the three backup
classes (Backup.copy_files, IncrementalBackup.__copy_files,
MirrorBackup.__copy_files), parameterized by the per-entry routine: log
the copying banner, ensure the destination directory, then fold over the
source entries.  The fuel bounds call depth as the Python recursion limit
does. -/
def copyDir (cf : FPath → FPath → Cs → String → Cs → Except Err (Cs × List Ev)) :
    Nat → FPath → FPath → Cs → Option FSNode → Except Err (FSNode × List Ev)
  | 0, _, _, _, _ => .error .fuel
  | fuel + 1, sp, dp, srcCs, slot =>
    let cd := createDirectory dp slot
    match cd.1 with
    | .dir dcs =>
      (copyLoop cf (copyDir cf fuel) sp dp srcCs srcCs dcs).map
        (fun p => (.dir p.1, .infoCopying :: cd.2 ++ p.2))
    | e =>
      if noCopyableEntries srcCs then
        .ok (e, .infoCopying :: cd.2 ++ badEvents srcCs dp)
      else .error .notADirectory

/-- The pruner's source-side existence test for one destination name:
item_in_source.exists() under the current source directory slot. -/
def srcHasB (srcSlot : Option FSNode) (n : String) : Bool :=
  match srcSlot with
  | some (.dir scs) => existsRes scs n
  | _ => false

/-- The resolved source counterpart slot the pruner recurses against for
a destination subdirectory (paths below it resolve through any source
symlink at that component). -/
def srcChildOf (srcSlot : Option FSNode) (n : String) : Option FSNode :=
  match srcSlot with
  | some (.dir scs) =>
    (match follow scs n with
     | some (_, e) => e
     | none => none)
  | _ => none

/-- The per-level loop of MirrorBackup.__delete_extra_files: iterate a
snapshot of the destination directory's entry names; a resolved regular
file whose would-be source counterpart does not exist is logged and
os.remove'd (unlinking a link-to-file entry itself); a resolved directory
is recursed into unconditionally, through any destination symlink,
against the resolved source counterpart (whether or not it exists);
everything else (a dangling link) is left alone, and no directory is ever
removed. -/
def pruneLoop (recurse : FPath → Option FSNode → Cs → Except Err (Cs × List Ev))
    (dp : FPath) (srcSlot : Option FSNode) :
    List String → Cs → Except Err (Cs × List Ev)
  | [], cur => .ok (cur, [])
  | n :: rest, cur =>
    if isFileRes cur n && !srcHasB srcSlot n then do
      let cur1 ← osRemove cur n
      let p ← pruneLoop recurse dp srcSlot rest cur1
      .ok (p.1, .delete (dp ++ [n]) :: p.2)
    else if isDirRes cur n then
      match follow cur n with
      | some (r, some (.dir sub)) => do
        let p1 ← recurse (dp ++ [n]) (srcChildOf srcSlot n) sub
        let p2 ← pruneLoop recurse dp srcSlot rest (setCs cur r (.dir p1.1))
        .ok (p2.1, p1.2 ++ p2.2)
      | _ => .error .loop
    else
      pruneLoop recurse dp srcSlot rest cur

/-- MirrorBackup.__delete_extra_files at one destination directory: take
the iterdir snapshot of entry names and run the pruning loop, with fuel
bounding recursion depth. -/
def pruneDir : Nat → FPath → Option FSNode → Cs → Except Err (Cs × List Ev)
  | 0, _, _, _ => .error .fuel
  | fuel + 1, dp, srcSlot, dcs =>
    pruneLoop (pruneDir fuel) dp srcSlot (keys dcs) dcs

/-- Backup.perform_backup: ensure the destination root, then copy the
source children into it; this is the full strategy's run. -/
def performBase (fuel : Nat) (srcCs : Cs) (dstRoot : Option FSNode) :
    Except Err (FSNode × List Ev) :=
  let cd := createDirectory [] dstRoot
  (copyDir copyFileB fuel [] [] srcCs (some cd.1)).map
    (fun p => (p.1, cd.2 ++ p.2))

/-- Modelled from the spec: FullBackup, imported by
src/backup/backup_factory.py from full_backup, a module absent from the
repository; per the spec the full strategy is the strict-create policy,
the full backup default behavior as present in source, i.e. the base
class Backup.perform_backup. -/
def performFull : Nat → Cs → Option FSNode → Except Err (FSNode × List Ev) :=
  performBase

/-- IncrementalBackup.perform_backup: the shared recursion with the
incremental per-entry routine (no separate root creation step). -/
def performIncr (fuel : Nat) (srcCs : Cs) (dstRoot : Option FSNode) :
    Except Err (FSNode × List Ev) :=
  copyDir copyFileI fuel [] [] srcCs dstRoot

/-- MirrorBackup.perform_backup: the shared recursion with the mirror
per-entry routine, then the extraneous-entry pruning pass over the
destination (Path.iterdir on a non-directory destination root raises). -/
def performMirror (fuel : Nat) (srcCs : Cs) (dstRoot : Option FSNode) :
    Except Err (FSNode × List Ev) := do
  let p1 ← copyDir copyFileM fuel [] [] srcCs dstRoot
  match p1.1 with
  | .dir dcs => do
    let p2 ← pruneDir fuel [] (some (.dir srcCs)) dcs
    .ok (.dir p2.1, p1.2 ++ p2.2)
  | _ => .error .notADirectory

/-- BackupStrategy (src/type_definitions.py): a StrEnum whose only member
is INCREMENTAL with value incremental; the docstring itself records that
only incremental is supported. -/
inductive BackupStrategy where
  | incremental
deriving Repr, DecidableEq

/-- The member's value attribute. -/
def BackupStrategy.val : BackupStrategy → String
  | .incremental => "incremental"

/-- The list comprehension over the enum members feeding click.Choice in
main (src/main.py). -/
def backupStrategyValues : List String := [BackupStrategy.val .incremental]

/-- StrEnum construction by value, BackupStrategy(value): ValueError for
any string that is not a member's value. -/
def backupStrategyOfValue (s : String) : Option BackupStrategy :=
  if s = "incremental" then some .incremental else none

/-- How the backup-strategy option of main fails. -/
inductive StrategyParseErr where
  | usageError
  | badParameter
deriving Repr, DecidableEq

/-- click's case-insensitive normalization of an option token (ASCII
lowering, what str.lower does on the tokens involved), written over the
character list so that it evaluates by reduction. -/
def lowerStr (s : String) : String := String.mk (s.data.map Char.toLower)

/-- The backup-strategy option of main (src/main.py): click first checks
the token against Choice(values, case_sensitive=False) and rejects a
non-member as a usage error before the callback runs; the option's
default is BackupStrategy.INCREMENTAL.value, so a missing option yields
the token incremental; the callback validate_backup_strategy then maps
None to INCREMENTAL and otherwise runs BackupStrategy(value), turning a
ValueError into BadParameter. -/
def parseStrategyOption (arg : Option String) :
    Except StrategyParseErr BackupStrategy :=
  let v := lowerStr (arg.getD ("incremental"))
  if backupStrategyValues.contains v then
    match backupStrategyOfValue v with
    | some s => .ok s
    | none => .error .badParameter
  else .error .usageError

mutual

/-- No symbolic link anywhere in a subtree. -/
def linkFree : FSNode → Bool
  | .file _ _ _ => true
  | .link _ => false
  | .dir cs => linkFreeCs cs

/-- No symbolic link anywhere below a directory's contents. -/
def linkFreeCs : Cs → Bool
  | [] => true
  | (_, e) :: rest => linkFree e && linkFreeCs rest

end

mutual

/-- Every directory in a subtree binds each name at most once (as a real
filesystem does). -/
def nodupTree : FSNode → Bool
  | .file _ _ _ => true
  | .link _ => true
  | .dir cs => nodupCs cs

/-- Distinct entry names at this level and recursively below. -/
def nodupCs : Cs → Bool
  | [] => true
  | (n, e) :: rest => !(keys rest).contains n && nodupTree e && nodupCs rest

end

/-- Kind compatibility of a destination tree with a source tree: wherever
both bind a name, the kinds agree (file with file, link with link,
directory with directory, recursively); destination-only names are
unconstrained. -/
def compatCs : Cs → Cs → Bool
  | _, [] => true
  | scs, (n, d) :: rest =>
    (match lookupCs scs n, d with
     | none, _ => true
     | some (.file _ _ _), .file _ _ _ => true
     | some (.link _), .link _ => true
     | some (.dir sub), .dir dsub => compatCs sub dsub
     | _, _ => false) && compatCs scs rest
termination_by _ dcs => sizeOf dcs

mutual

/-- Nesting depth of a subtree. -/
def depthN : FSNode → Nat
  | .file _ _ _ => 0
  | .link _ => 0
  | .dir cs => depthCs cs + 1

/-- Nesting depth below a directory's contents. -/
def depthCs : Cs → Nat
  | [] => 0
  | (_, e) :: rest => max (depthN e) (depthCs rest)

end

/-- Entry at a relative path below a node (lstat-level walk). -/
def lookupPathN : FSNode → FPath → Option FSNode
  | e, [] => some e
  | .dir cs, n :: p =>
    (match lookupCs cs n with
     | some e => lookupPathN e p
     | none => none)
  | _, _ :: _ => none

/-- A regular file sits at this relative path. -/
def fileAtN (t : FSNode) (p : FPath) : Bool :=
  match lookupPathN t p with
  | some (.file _ _ _) => true
  | _ => false

mutual

/-- Specification of the destination contents after the full or
incremental copy pass handles one link-free source entry against a
kind-compatible destination: an unchanged file (same size and mtime) is
left alone, a changed or new file becomes the source copy, a directory is
materialized and synchronized recursively. -/
def syncStep (dcs : Cs) (n : String) (e : FSNode) : Cs :=
  match e with
  | .file s m d =>
    (match lookupCs dcs n with
     | some (.file s2 m2 _) =>
       if s == s2 && m == m2 then dcs else setCs dcs n (.file s m d)
     | _ => setCs dcs n (.file s m d))
  | .dir sub =>
    (match lookupCs dcs n with
     | some (.dir dsub) => setCs dcs n (.dir (syncCs sub dsub))
     | _ => setCs dcs n (.dir (syncCs sub [])))
  | .link _ => dcs

/-- Fold of syncStep over the source entries in order. -/
def syncCs : Cs → Cs → Cs
  | [], dcs => dcs
  | (n, e) :: rest, dcs => syncCs rest (syncStep dcs n e)

end

mutual

/-- Specification of the destination contents after the mirror copy pass
handles one link-free source entry: a regular file is overwritten
unconditionally, a directory is materialized and mirrored recursively. -/
def syncStepM (dcs : Cs) (n : String) (e : FSNode) : Cs :=
  match e with
  | .file s m d => setCs dcs n (.file s m d)
  | .dir sub =>
    (match lookupCs dcs n with
     | some (.dir dsub) => setCs dcs n (.dir (syncCsM sub dsub))
     | _ => setCs dcs n (.dir (syncCsM sub [])))
  | .link _ => dcs

/-- Fold of syncStepM over the source entries in order. -/
def syncCsM : Cs → Cs → Cs
  | [], dcs => dcs
  | (n, e) :: rest, dcs => syncCsM rest (syncStepM dcs n e)

end

/-- Specification of a link-free destination directory's contents after
the pruning pass against a resolved source slot: a file whose counterpart
name does not exist in the source directory is dropped, a directory is
kept and pruned recursively against its (possibly missing) counterpart,
anything else is kept. -/
def pruneSpecCs : Option FSNode → Cs → Cs
  | _, [] => []
  | srcSlot, (n, .file s m d) :: rest =>
    if srcHasB srcSlot n then
      (n, .file s m d) :: pruneSpecCs srcSlot rest
    else pruneSpecCs srcSlot rest
  | srcSlot, (n, .dir sub) :: rest =>
    (n, .dir (pruneSpecCs (srcChildOf srcSlot n) sub)) ::
      pruneSpecCs srcSlot rest
  | srcSlot, (n, .link t) :: rest => (n, .link t) :: pruneSpecCs srcSlot rest
termination_by _ dcs => sizeOf dcs

theorem lookupCs_setCs_self (cs : Cs) (n : String) (v : FSNode) :
    lookupCs (setCs cs n v) n = some v := by
  induction cs with
  | nil => simp [setCs, lookupCs]
  | cons hd rest ih =>
    obtain ⟨m, e⟩ := hd
    by_cases h : m = n
    · simp [setCs, lookupCs, h]
    · simp [setCs, lookupCs, h, ih]

theorem lookupCs_setCs_ne (cs : Cs) {m n : String} (v : FSNode) (h : m ≠ n) :
    lookupCs (setCs cs n v) m = lookupCs cs m := by
  induction cs with
  | nil => simp [setCs, lookupCs, Ne.symm h]
  | cons hd rest ih =>
    obtain ⟨k, e⟩ := hd
    by_cases hk : k = n
    · subst hk
      simp [setCs, lookupCs, Ne.symm h]
    · by_cases hm : k = m
      · subst hm
        simp [setCs, lookupCs, hk]
      · simp [setCs, lookupCs, hk, hm, ih]

theorem setCs_eq_of_lookup {cs : Cs} {n : String} {v : FSNode}
    (h : lookupCs cs n = some v) : setCs cs n v = cs := by
  induction cs with
  | nil => simp [lookupCs] at h
  | cons hd rest ih =>
    obtain ⟨k, e⟩ := hd
    by_cases hk : k = n
    · subst hk
      simp [lookupCs] at h
      simp [setCs, h]
    · simp [lookupCs, hk] at h
      simp [setCs, hk, ih h]

theorem lookupCs_removeCs_ne (cs : Cs) {m n : String} (h : m ≠ n) :
    lookupCs (removeCs cs n) m = lookupCs cs m := by
  induction cs with
  | nil => simp [removeCs]
  | cons hd rest ih =>
    obtain ⟨k, e⟩ := hd
    by_cases hk : k = n
    · subst hk
      simp [removeCs, lookupCs, Ne.symm h]
    · by_cases hm : k = m
      · subst hm
        simp [removeCs, lookupCs, hk]
      · simp [removeCs, lookupCs, hk, hm, ih]

theorem linkFreeCs_lookup {cs : Cs} {n : String} {e : FSNode}
    (h : linkFreeCs cs = true) (he : lookupCs cs n = some e) :
    linkFree e = true := by
  induction cs with
  | nil => simp [lookupCs] at he
  | cons hd rest ih =>
    obtain ⟨k, x⟩ := hd
    simp [linkFreeCs, Bool.and_eq_true] at h
    by_cases hk : k = n
    · subst hk
      simp [lookupCs] at he
      subst he
      exact h.1
    · simp [lookupCs, hk] at he
      exact ih h.2 he

theorem follow_of_linkFree {cs : Cs} (h : linkFreeCs cs = true) (n : String) :
    follow cs n = some (n, lookupCs cs n) := by
  unfold follow followAux
  cases he : lookupCs cs n with
  | none => simp
  | some e =>
    have := linkFreeCs_lookup h he
    cases e <;> simp_all [linkFree]

theorem existsRes_of_linkFree {cs : Cs} (h : linkFreeCs cs = true) (n : String) :
    existsRes cs n = (lookupCs cs n).isSome := by
  unfold existsRes
  rw [follow_of_linkFree h]
  cases lookupCs cs n <;> simp

theorem statRes_of_linkFree {cs : Cs} (h : linkFreeCs cs = true) (n : String) :
    statRes cs n =
      (match lookupCs cs n with
       | some (.file s m _) => some (s, m)
       | _ => none) := by
  unfold statRes
  rw [follow_of_linkFree h]
  cases lookupCs cs n with
  | none => rfl
  | some e => cases e <;> rfl

theorem isFileRes_of_linkFree {cs : Cs} (h : linkFreeCs cs = true) (n : String) :
    isFileRes cs n =
      (match lookupCs cs n with
       | some (.file _ _ _) => true
       | _ => false) := by
  unfold isFileRes
  rw [follow_of_linkFree h]
  cases lookupCs cs n with
  | none => rfl
  | some e => cases e <;> rfl

theorem isDirRes_of_linkFree {cs : Cs} (h : linkFreeCs cs = true) (n : String) :
    isDirRes cs n =
      (match lookupCs cs n with
       | some (.dir _) => true
       | _ => false) := by
  unfold isDirRes
  rw [follow_of_linkFree h]
  cases lookupCs cs n with
  | none => rfl
  | some e => cases e <;> rfl

theorem follow_of_entry_nonlink {cs : Cs} {n : String} {e : FSNode}
    (he : lookupCs cs n = some e) (hne : ∀ t, e ≠ .link t) :
    follow cs n = some (n, some e) := by
  unfold follow followAux
  rw [he]
  cases e with
  | link t => exact absurd rfl (hne t)
  | file s m d => simp
  | dir cs2 => simp

theorem existsRes_of_entry_nonlink {cs : Cs} {n : String} {e : FSNode}
    (he : lookupCs cs n = some e) (hne : ∀ t, e ≠ .link t) :
    existsRes cs n = true := by
  unfold existsRes
  rw [follow_of_entry_nonlink he hne]

theorem existsRes_of_lookup_none {cs : Cs} {n : String}
    (h : lookupCs cs n = none) : existsRes cs n = false := by
  unfold existsRes follow followAux
  rw [h]

/-- C2.  The change detector used by the full and incremental strategies
decides to copy exactly when the destination does not exist, or its size
differs from the source size, or its mtime differs from the source mtime
(statRes carries both stat fields at native resolution); on a skip
decision the destination is left unchanged, with one unchanged-file log
event, in both strategies. -/
theorem change_detector_copy_iff (s m d : Nat) (sp dp : FPath)
    (srcSibs dst : Cs) (n : String)
    (hsrc : lookupCs srcSibs n = some (.file s m d)) :
    (shouldCopy s m dst n = true ↔
      existsRes dst n = false ∨ statRes dst n ≠ some (s, m)) ∧
    (shouldCopy s m dst n = false →
      copyFileB sp dp srcSibs n dst = .ok (dst, [.skipUnchanged (sp ++ [n])]) ∧
      copyFileI sp dp srcSibs n dst = .ok (dst, [.skipUnchanged (sp ++ [n])])) := by
  have hex : existsRes srcSibs n = true :=
    existsRes_of_entry_nonlink hsrc (by intro t h; cases h)
  constructor
  · unfold shouldCopy
    cases hE : existsRes dst n with
    | false => simp
    | true =>
      cases hS : statRes dst n with
      | none => simp
      | some p =>
        obtain ⟨ds, dm⟩ := p
        by_cases h1 : s = ds <;> by_cases h2 : m = dm <;>
          simp [h1, h2, bne_iff_ne] <;> omega
  · intro hskip
    constructor
    · unfold copyFileB
      rw [hex]
      simp [hsrc, hskip]
    · unfold copyFileI
      rw [hex]
      simp [hsrc, hskip]

/-- Witness for C2 at a concrete destination holding an identical file. -/
theorem change_detector_copy_iff_witness :
    lookupCs [("a", FSNode.file 3 9 0)] "a" = some (.file 3 9 0) ∧
    (shouldCopy 3 9 [("a", FSNode.file 3 9 1)] "a" = false ∧
     copyFileB [] [] [("a", FSNode.file 3 9 0)] "a" [("a", FSNode.file 3 9 1)] =
       .ok ([("a", FSNode.file 3 9 1)], [.skipUnchanged ["a"]])) := by
  refine ⟨rfl, rfl, ?_⟩
  exact ((change_detector_copy_iff 3 9 0 [] [] [("a", FSNode.file 3 9 0)]
    [("a", FSNode.file 3 9 1)] "a" rfl).2 rfl).1

/-- C10.  In all three backup classes the per-entry copy routine, given a
source entry that exists but is neither a symlink nor a regular file
(a directory), performs no destination mutation and emits no log event:
it returns the destination contents unchanged with an empty event list. -/
theorem copy_routine_ignores_non_file_non_link (sp dp : FPath)
    (srcSibs dst : Cs) (n : String) (sub : Cs)
    (hsrc : lookupCs srcSibs n = some (.dir sub)) :
    copyFileB sp dp srcSibs n dst = .ok (dst, []) ∧
    copyFileI sp dp srcSibs n dst = .ok (dst, []) ∧
    copyFileM sp dp srcSibs n dst = .ok (dst, []) := by
  have hex : existsRes srcSibs n = true :=
    existsRes_of_entry_nonlink hsrc (by intro t h; cases h)
  refine ⟨?_, ?_, ?_⟩
  · unfold copyFileB
    rw [hex]
    simp [hsrc]
  · unfold copyFileI
    rw [hex]
    simp [hsrc]
  · unfold copyFileM
    rw [hex]
    simp [hsrc]

/-- Witness for C10 on a concrete source directory entry. -/
theorem copy_routine_ignores_non_file_non_link_witness :
    lookupCs [("d", FSNode.dir [])] "d" = some (.dir []) ∧
    copyFileM ["x"] ["y"] [("d", FSNode.dir [])] "d" [("z", FSNode.file 1 2 3)] =
      .ok ([("z", FSNode.file 1 2 3)], []) := by
  refine ⟨rfl, ?_⟩
  exact (copy_routine_ignores_non_file_non_link ["x"] ["y"] [("d", FSNode.dir [])]
    [("z", FSNode.file 1 2 3)] "d" [] rfl).2.2

/-- C8.  Whenever any of the three per-entry routines completes and its
events record a symlink copy for a source symlink with target t, the
destination entry at that name is a symlink with exactly the same literal
target string t (no resolution or rewriting). -/
theorem symlink_target_preserved_verbatim (sp dp : FPath) (srcSibs dst : Cs)
    (n t : String) (hsrc : lookupCs srcSibs n = some (.link t)) :
    (∀ dst1 evs, copyFileB sp dp srcSibs n dst = .ok (dst1, evs) →
      .copyLink (sp ++ [n]) (dp ++ [n]) ∈ evs →
      lookupCs dst1 n = some (.link t)) ∧
    (∀ dst1 evs, copyFileI sp dp srcSibs n dst = .ok (dst1, evs) →
      .copyLink (sp ++ [n]) (dp ++ [n]) ∈ evs →
      lookupCs dst1 n = some (.link t)) ∧
    (∀ dst1 evs, copyFileM sp dp srcSibs n dst = .ok (dst1, evs) →
      .copyLink (sp ++ [n]) (dp ++ [n]) ∈ evs →
      lookupCs dst1 n = some (.link t)) := by
  refine ⟨?_, ?_, ?_⟩
  all_goals intro dst1 evs hrun hmem
  · unfold copyFileB at hrun
    by_cases hex : existsRes srcSibs n
    · rw [hex] at hrun
      simp [hsrc] at hrun
      cases hd : lookupCs dst n with
      | some e =>
        simp [hd] at hrun
        obtain ⟨h1, h2⟩ := hrun
        subst h2
        simp at hmem
      | none =>
        simp [hd] at hrun
        obtain ⟨h1, _⟩ := hrun
        subst h1
        exact lookupCs_setCs_self dst n (.link t)
    · simp [hex] at hrun
      obtain ⟨_, h2⟩ := hrun
      subst h2
      simp at hmem
  · unfold copyFileI at hrun
    by_cases hex : existsRes srcSibs n
    · rw [hex] at hrun
      simp [hsrc] at hrun
      by_cases hexd : existsRes dst n
      · rw [hexd] at hrun
        simp at hrun
        cases hd : lookupCs dst n with
        | some e =>
          cases e with
          | link t2 =>
            simp [hd] at hrun
            by_cases ht2 : t2 = t
            · simp [ht2] at hrun
              obtain ⟨h1, h2⟩ := hrun
              subst h2
              simp at hmem
            · simp [bne_iff_ne, ht2] at hrun
              obtain ⟨h1, _⟩ := hrun
              subst h1
              exact lookupCs_setCs_self _ n (.link t)
          | file s2 m2 d2 => simp [hd] at hrun
          | dir sub => simp [hd] at hrun
        | none => simp [hd] at hrun
      · simp [hexd] at hrun
        cases hd : lookupCs dst n with
        | some e =>
          simp [hd] at hrun
          obtain ⟨h1, h2⟩ := hrun
          subst h2
          simp at hmem
        | none =>
          simp [hd] at hrun
          obtain ⟨h1, _⟩ := hrun
          subst h1
          exact lookupCs_setCs_self dst n (.link t)
    · simp [hex] at hrun
      obtain ⟨_, h2⟩ := hrun
      subst h2
      simp at hmem
  · unfold copyFileM at hrun
    by_cases hex : existsRes srcSibs n
    · rw [hex] at hrun
      simp [hsrc] at hrun
      by_cases hexd : existsRes dst n
      · rw [hexd] at hrun
        simp at hrun
        cases hd : lookupCs dst n with
        | some e =>
          cases e with
          | dir sub => simp [osRemove, hd] at hrun
          | file s2 m2 d2 =>
            simp [osRemove, hd] at hrun
            obtain ⟨h1, _⟩ := hrun
            subst h1
            exact lookupCs_setCs_self _ n (.link t)
          | link t2 =>
            simp [osRemove, hd] at hrun
            obtain ⟨h1, _⟩ := hrun
            subst h1
            exact lookupCs_setCs_self _ n (.link t)
        | none => simp [osRemove, hd] at hrun
      · simp [hexd] at hrun
        cases hd : lookupCs dst n with
        | some e => simp [hd] at hrun
        | none =>
          simp [hd] at hrun
          obtain ⟨h1, _⟩ := hrun
          subst h1
          exact lookupCs_setCs_self dst n (.link t)
    · simp [hex] at hrun
      obtain ⟨_, h2⟩ := hrun
      subst h2
      simp at hmem

/-- Witness for C8: a fresh destination receives the literal relative
target string. -/
theorem symlink_target_preserved_verbatim_witness :
    lookupCs [("a", FSNode.file 1 1 0), ("l", FSNode.link "a")] "l" =
      some (.link "a") ∧
    lookupCs [("l", FSNode.link "a")] "l" = some (.link "a") := by
  refine ⟨rfl, ?_⟩
  exact (symlink_target_preserved_verbatim [] []
      [("a", FSNode.file 1 1 0), ("l", FSNode.link "a")] [] "l" "a" rfl).1
    [("l", FSNode.link "a")] [.copyLink ["l"] ["l"]] rfl (by simp)

/-- C3.  The command-line strategy option: the BackupStrategy enum in
src/type_definitions.py has only the INCREMENTAL member, so the
click.Choice value list is exactly the singleton incremental; the tokens
full and mirror are rejected as usage errors before any backup object is
constructed, while incremental and the default both yield the incremental
strategy.  (backup_factory.py nevertheless dispatches on
BackupStrategy.FULL and BackupStrategy.MIRROR, attributes the enum does
not define, and imports FullBackup from a module absent from the
repository.) -/
theorem strategy_option_rejects_full_and_mirror :
    parseStrategyOption (some ("full")) = .error .usageError ∧
    parseStrategyOption (some ("mirror")) = .error .usageError ∧
    parseStrategyOption (some ("incremental")) = .ok .incremental ∧
    parseStrategyOption none = .ok .incremental :=
  ⟨rfl, rfl, rfl, rfl⟩

/-- C7 counterexample: with a dangling symlink (target x, which does not
resolve) at the destination path, pathlib exists() reports the path as
absent, yet the incremental routine neither creates the source's link nor
replaces the stale entry: os.symlink hits FileExistsError, the routine
logs a skip, and the old target x remains in place. -/
theorem incremental_dangling_link_not_replaced :
    copyFileI [] [] [("a", FSNode.file 1 1 0), ("l", FSNode.link "a")] "l"
        [("l", FSNode.link "x")] =
      .ok ([("l", FSNode.link "x")], [.skipLinkExists ["l"]]) ∧
    lookupCs [("l", FSNode.link "x")] "l" = some (.link "x") ∧
    ("x" : String) ≠ "a" :=
  ⟨rfl, rfl, by decide⟩

/-- C7 amended: the incremental symlink reconciler, with destination
existence judged by following the link (as pathlib exists() does): a path
with no entry gets the link created; an existing resolving link with a
different target is deleted first and re-created with the new target; a
resolving link with the same target is left untouched (the collision is
logged as a skip); a dangling destination entry is treated as
nonexistent, so creation collides, is logged as a skip, and the stale
entry survives. -/
theorem incremental_symlink_policy (sp dp : FPath) (srcSibs dst : Cs)
    (n t : String) (hsrc : lookupCs srcSibs n = some (.link t))
    (hex : existsRes srcSibs n = true) :
    (lookupCs dst n = none →
      copyFileI sp dp srcSibs n dst =
        .ok (setCs dst n (.link t), [.copyLink (sp ++ [n]) (dp ++ [n])])) ∧
    (∀ t2, lookupCs dst n = some (.link t2) → existsRes dst n = true →
      t2 ≠ t →
      copyFileI sp dp srcSibs n dst =
        .ok (setCs (removeCs dst n) n (.link t),
             [.copyLink (sp ++ [n]) (dp ++ [n])])) ∧
    (lookupCs dst n = some (.link t) → existsRes dst n = true →
      copyFileI sp dp srcSibs n dst =
        .ok (dst, [.skipLinkExists (sp ++ [n])])) ∧
    (∀ e, lookupCs dst n = some e → existsRes dst n = false →
      copyFileI sp dp srcSibs n dst =
        .ok (dst, [.skipLinkExists (sp ++ [n])])) := by
  refine ⟨?_, ?_, ?_, ?_⟩
  · intro hd
    have hexd : existsRes dst n = false := existsRes_of_lookup_none hd
    unfold copyFileI
    rw [hex]
    simp [hsrc, hexd, hd]
  · intro t2 hd hexd hne
    unfold copyFileI
    rw [hex]
    simp [hsrc, hexd, hd, bne_iff_ne, hne]
  · intro hd hexd
    unfold copyFileI
    rw [hex]
    simp [hsrc, hexd, hd]
  · intro e hd hexd
    unfold copyFileI
    rw [hex]
    simp [hsrc, hexd, hd]

/-- Witness for C7's amended statement: a resolving destination link with
a differing target is replaced. -/
theorem incremental_symlink_policy_witness :
    lookupCs [("a", FSNode.file 1 1 0), ("l", FSNode.link "a")] "l" =
      some (.link "a") ∧
    existsRes [("a", FSNode.file 1 1 0), ("l", FSNode.link "a")] "l" = true ∧
    lookupCs [("b", FSNode.file 2 2 0), ("l", FSNode.link "b")] "l" =
      some (.link "b") ∧
    existsRes [("b", FSNode.file 2 2 0), ("l", FSNode.link "b")] "l" = true ∧
    copyFileI [] [] [("a", FSNode.file 1 1 0), ("l", FSNode.link "a")] "l"
        [("b", FSNode.file 2 2 0), ("l", FSNode.link "b")] =
      .ok (setCs (removeCs [("b", FSNode.file 2 2 0), ("l", FSNode.link "b")]
             "l") "l" (.link "a"),
           [.copyLink ["l"] ["l"]]) := by
  refine ⟨rfl, rfl, rfl, rfl, ?_⟩
  exact (incremental_symlink_policy [] []
      [("a", FSNode.file 1 1 0), ("l", FSNode.link "a")]
      [("b", FSNode.file 2 2 0), ("l", FSNode.link "b")] "l" "a" rfl
      rfl).2.1 "b" rfl rfl (by decide)

/-- C9 counterexample: a dangling destination link (target x) at a source
symlink's path: exists() reports it absent so it is not removed, and
os.symlink's FileExistsError has no handler in MirrorBackup.__copy_file,
so the whole mirror run aborts instead of logging a skip and
continuing. -/
theorem mirror_symlink_collision_uncaught :
    performMirror 3 [("a", FSNode.file 1 1 0), ("l", FSNode.link "a")]
        (some (.dir [("l", FSNode.link "x")])) =
      .error .fileExists := rfl

/-- C9 amended: a FileExistsError from creating the destination symlink
over a still-present entry is caught, logged as an already-exists skip,
and the routine returns normally in the full strategy (for any present
entry) and in the incremental strategy (in the cases where creation can
collide: a non-resolving entry, or a resolving link with the same
target); the mirror strategy has no handler, so the same collision (a
present entry that exists() reports absent) aborts the run. -/
theorem symlink_collision_caught_full_incr_only (sp dp : FPath)
    (srcSibs dst : Cs) (n t : String)
    (hsrc : lookupCs srcSibs n = some (.link t))
    (hex : existsRes srcSibs n = true) (e : FSNode)
    (hd : lookupCs dst n = some e) :
    copyFileB sp dp srcSibs n dst = .ok (dst, [.skipLinkExists (sp ++ [n])]) ∧
    (existsRes dst n = false →
      copyFileI sp dp srcSibs n dst =
        .ok (dst, [.skipLinkExists (sp ++ [n])])) ∧
    (e = .link t → existsRes dst n = true →
      copyFileI sp dp srcSibs n dst =
        .ok (dst, [.skipLinkExists (sp ++ [n])])) ∧
    (existsRes dst n = false →
      copyFileM sp dp srcSibs n dst = .error .fileExists) := by
  refine ⟨?_, ?_, ?_, ?_⟩
  · unfold copyFileB
    rw [hex]
    simp [hsrc, hd]
  · intro hexd
    unfold copyFileI
    rw [hex]
    simp [hsrc, hexd, hd]
  · intro he hexd
    subst he
    unfold copyFileI
    rw [hex]
    simp [hsrc, hexd, hd]
  · intro hexd
    unfold copyFileM
    rw [hex]
    simp [hsrc, hexd, hd]

/-- Witness for C9's amended statement, at a dangling destination
entry. -/
theorem symlink_collision_caught_full_incr_only_witness :
    lookupCs [("a", FSNode.file 1 1 0), ("l", FSNode.link "a")] "l" =
      some (.link "a") ∧
    existsRes [("a", FSNode.file 1 1 0), ("l", FSNode.link "a")] "l" = true ∧
    lookupCs [("l", FSNode.link "x")] "l" = some (.link "x") ∧
    existsRes [("l", FSNode.link "x")] "l" = false ∧
    copyFileB [] [] [("a", FSNode.file 1 1 0), ("l", FSNode.link "a")] "l"
        [("l", FSNode.link "x")] =
      .ok ([("l", FSNode.link "x")], [.skipLinkExists ["l"]]) ∧
    copyFileM [] [] [("a", FSNode.file 1 1 0), ("l", FSNode.link "a")] "l"
        [("l", FSNode.link "x")] = .error .fileExists := by
  have h := symlink_collision_caught_full_incr_only [] []
    [("a", FSNode.file 1 1 0), ("l", FSNode.link "a")]
    [("l", FSNode.link "x")] "l" "a" rfl rfl (.link "x") rfl
  exact ⟨rfl, rfl, rfl, rfl, h.1, h.2.2.2 rfl⟩

/-- C1 counterexample: the source holds a regular file d where the
destination holds a directory d; shutil.copy2 into the existing directory
writes d/d inside it, the pruner then deletes that inner file (its
counterpart path lies below a source file, hence does not exist) but
never removes directories, so after the mirror run the destination has no
regular file at any path while the source has one at d: the recursive
file sets differ. -/
theorem mirror_convergence_fails_on_kind_conflict :
    performMirror 3 [("d", FSNode.file 1 1 0)]
        (some (.dir [("d", FSNode.dir [])])) =
      .ok (.dir [("d", FSNode.dir [])],
        [.infoCopying, .copyFile ["d"] ["d"], .delete ["d", "d"]]) ∧
    fileAtN (.dir [("d", FSNode.file 1 1 0)]) ["d"] = true ∧
    fileAtN (.dir [("d", FSNode.dir [])]) ["d"] = false ∧
    fileAtN (.dir [("d", FSNode.dir [])]) ["d", "d"] = false :=
  ⟨rfl, rfl, rfl, rfl⟩

/-- C4 counterexample: MirrorBackup.__copy_file copies every regular file
unconditionally, so the second mirror run over an unchanged source
re-copies the file (a copy event is emitted) instead of classifying it
skip-unchanged; the claim fails for the mirror strategy. -/
theorem mirror_second_run_still_copies :
    performMirror 2 [("a", FSNode.file 1 1 0)] none =
      .ok (.dir [("a", FSNode.file 1 1 0)],
        [.infoCopying, .copyFile ["a"] ["a"]]) ∧
    performMirror 2 [("a", FSNode.file 1 1 0)]
        (some (.dir [("a", FSNode.file 1 1 0)])) =
      .ok (.dir [("a", FSNode.file 1 1 0)],
        [.infoCopying, .copyFile ["a"] ["a"]]) ∧
    Ev.copyFile ["a"] ["a"] ∈ [Ev.infoCopying, Ev.copyFile ["a"] ["a"]] :=
  ⟨rfl, rfl, by simp⟩

/-- C5 counterexample: with a destination directory d where the source
has a regular file d, the full run's shutil.copy2 into the directory
overwrites the destination entry d/d, a path with no source counterpart,
so that entry does not survive the run unmodified; the incremental run
behaves identically on this input. -/
theorem full_run_modifies_counterpartless_entry :
    performFull 3 [("d", FSNode.file 5 7 9)]
        (some (.dir [("d", FSNode.dir [("d", FSNode.file 1 1 0)])])) =
      .ok (.dir [("d", FSNode.dir [("d", FSNode.file 5 7 9)])],
        [.infoCopying, .copyFile ["d"] ["d"]]) ∧
    performIncr 3 [("d", FSNode.file 5 7 9)]
        (some (.dir [("d", FSNode.dir [("d", FSNode.file 1 1 0)])])) =
      .ok (.dir [("d", FSNode.dir [("d", FSNode.file 5 7 9)])],
        [.infoCopying, .copyFile ["d"] ["d"]]) ∧
    lookupPathN (.dir [("d", FSNode.file 5 7 9)]) ["d", "d"] = none ∧
    lookupPathN (.dir [("d", FSNode.dir [("d", FSNode.file 1 1 0)])])
      ["d", "d"] = some (.file 1 1 0) ∧
    lookupPathN (.dir [("d", FSNode.dir [("d", FSNode.file 5 7 9)])])
      ["d", "d"] = some (.file 5 7 9) :=
  ⟨rfl, rfl, rfl, rfl, rfl⟩

/-- An entry that is not a symbolic link. -/
def nonLink : FSNode → Bool
  | .link _ => false
  | _ => true

/-- No top-level entry of a directory is a symbolic link (what sibling
resolution inspects). -/
def noTopLink (cs : Cs) : Bool := cs.all (fun p => nonLink p.2)

theorem noTopLink_lookup {cs : Cs} {n : String} {e : FSNode}
    (h : noTopLink cs = true) (he : lookupCs cs n = some e) :
    nonLink e = true := by
  induction cs with
  | nil => simp [lookupCs] at he
  | cons hd rest ih =>
    obtain ⟨k, x⟩ := hd
    simp [noTopLink] at h
    by_cases hk : k = n
    · subst hk
      simp [lookupCs] at he
      subst he
      exact h.1
    · simp [lookupCs, hk] at he
      exact ih (by simpa [noTopLink] using h.2) he

theorem follow_of_noTopLink {cs : Cs} (h : noTopLink cs = true) (n : String) :
    follow cs n = some (n, lookupCs cs n) := by
  unfold follow followAux
  cases he : lookupCs cs n with
  | none => simp
  | some e =>
    have := noTopLink_lookup h he
    cases e <;> simp_all [nonLink]

theorem linkFreeCs_noTopLink {cs : Cs} (h : linkFreeCs cs = true) :
    noTopLink cs = true := by
  induction cs with
  | nil => rfl
  | cons hd rest ih =>
    obtain ⟨k, x⟩ := hd
    simp [linkFreeCs, Bool.and_eq_true] at h
    have hx : nonLink x = true := by
      cases x <;> simp_all [linkFree, nonLink]
    simp [noTopLink, hx]
    have := ih h.2
    simpa [noTopLink] using this

theorem lookupCs_of_mem_nodup {cs : Cs} {n : String} {e : FSNode}
    (hnd : nodupCs cs = true) (hm : (n, e) ∈ cs) : lookupCs cs n = some e := by
  induction cs with
  | nil => cases hm
  | cons hd rest ih =>
    obtain ⟨k, x⟩ := hd
    simp [nodupCs, Bool.and_eq_true] at hnd
    rcases List.mem_cons.mp hm with h1 | h2
    · injection h1 with ha hb
      subst ha
      subst hb
      simp [lookupCs]
    · have hne : k ≠ n := by
        intro hkn
        subst hkn
        exact hnd.1.1 (by simpa [keys] using List.mem_map_of_mem Prod.fst h2)
      simp [lookupCs, hne]
      exact ih hnd.2 h2

theorem mem_of_lookupCs {cs : Cs} {n : String} {e : FSNode}
    (h : lookupCs cs n = some e) : (n, e) ∈ cs := by
  induction cs with
  | nil => simp [lookupCs] at h
  | cons hd rest ih =>
    obtain ⟨k, x⟩ := hd
    by_cases hk : k = n
    · subst hk
      simp [lookupCs] at h
      subst h
      exact List.mem_cons_self _ _
    · simp [lookupCs, hk] at h
      exact List.mem_cons_of_mem _ (ih h)

theorem mem_keys_setCs {cs : Cs} {n m : String} {v : FSNode} :
    m ∈ keys (setCs cs n v) ↔ m ∈ keys cs ∨ m = n := by
  induction cs with
  | nil => simp [setCs, keys]
  | cons hd rest ih =>
    obtain ⟨k, x⟩ := hd
    by_cases hk : k = n
    · subst hk
      simp [setCs, keys]
      tauto
    · simp [setCs, hk, keys] at ih ⊢
      rw [ih]
      tauto

theorem nodupCs_setCs {cs : Cs} {n : String} {v : FSNode}
    (hnd : nodupCs cs = true) (hv : nodupTree v = true) :
    nodupCs (setCs cs n v) = true := by
  induction cs with
  | nil => simp [setCs, nodupCs, keys, hv]
  | cons hd rest ih =>
    obtain ⟨k, x⟩ := hd
    simp [nodupCs, Bool.and_eq_true] at hnd
    by_cases hk : k = n
    · subst hk
      simp [setCs, nodupCs, hv, hnd.1.1, hnd.2]
    · have h2 := ih hnd.2
      simp [setCs, hk, nodupCs, hnd.1.2, h2]
      intro hmem
      exact hnd.1.1 (by rcases mem_keys_setCs.mp hmem with h | h
                        · exact h
                        · exact absurd h hk)

theorem linkFreeCs_setCs {cs : Cs} {n : String} {v : FSNode}
    (h : linkFreeCs cs = true) (hv : linkFree v = true) :
    linkFreeCs (setCs cs n v) = true := by
  induction cs with
  | nil => simp [setCs, linkFreeCs, hv]
  | cons hd rest ih =>
    obtain ⟨k, x⟩ := hd
    simp [linkFreeCs, Bool.and_eq_true] at h
    by_cases hk : k = n
    · subst hk
      simp [setCs, linkFreeCs, hv, h.2]
    · simp [setCs, hk, linkFreeCs, h.1, ih h.2]

theorem noTopLink_setCs {cs : Cs} {n : String} {v : FSNode}
    (h : noTopLink cs = true) (hv : nonLink v = true) :
    noTopLink (setCs cs n v) = true := by
  induction cs with
  | nil => simp [setCs, noTopLink, hv]
  | cons hd rest ih =>
    obtain ⟨k, x⟩ := hd
    simp only [noTopLink, List.all_cons, Bool.and_eq_true] at h
    have h2 := ih h.2
    by_cases hk : k = n
    · subst hk
      have h3 : noTopLink ((k, v) :: rest) = true := by
        simp only [noTopLink, List.all_cons, Bool.and_eq_true]
        exact ⟨hv, h.2⟩
      simpa [setCs] using h3
    · have h3 : noTopLink ((k, x) :: setCs rest n v) = true := by
        simp only [noTopLink, List.all_cons, Bool.and_eq_true]
        exact ⟨h.1, h2⟩
      simpa [setCs, hk] using h3

/-- The per-name content of the compatibility predicate: source entry
(if any) against a destination entry. -/
def kindCompat (se : Option FSNode) (d : FSNode) : Prop :=
  match se, d with
  | none, _ => True
  | some (.file _ _ _), .file _ _ _ => True
  | some (.link _), .link _ => True
  | some (.dir sub), .dir dsub => compatCs sub dsub = true
  | _, _ => False

theorem compatCs_lookup {scs dcs : Cs} {n : String} {d : FSNode}
    (hc : compatCs scs dcs = true) (hd : lookupCs dcs n = some d) :
    kindCompat (lookupCs scs n) d := by
  induction dcs with
  | nil => simp [lookupCs] at hd
  | cons hd2 rest ih =>
    obtain ⟨k, x⟩ := hd2
    unfold compatCs at hc
    rw [Bool.and_eq_true] at hc
    by_cases hk : k = n
    · subst hk
      rw [lookupCs] at hd
      simp at hd
      subst hd
      have h1 := hc.1
      unfold kindCompat
      cases hs : lookupCs scs k with
      | none => simp
      | some e =>
        rw [hs] at h1
        cases e <;> cases x <;> simp_all
    · rw [lookupCs] at hd
      simp [hk] at hd
      exact ih hc.2 hd

theorem compatCs_nil (scs : Cs) : compatCs scs [] = true := by
  unfold compatCs
  rfl

theorem compatCs_cons {scs : Cs} {n : String} {v : FSNode} {rest : Cs}
    (hv : kindCompat (lookupCs scs n) v) (hr : compatCs scs rest = true) :
    compatCs scs ((n, v) :: rest) = true := by
  unfold compatCs
  rw [Bool.and_eq_true]
  refine ⟨?_, hr⟩
  unfold kindCompat at hv
  cases hs : lookupCs scs n with
  | none => simp
  | some e =>
    rw [hs] at hv
    cases e <;> cases v <;> simp_all

theorem compatCs_setCs {scs dcs : Cs} {n : String} {v : FSNode}
    (hc : compatCs scs dcs = true) (hv : kindCompat (lookupCs scs n) v) :
    compatCs scs (setCs dcs n v) = true := by
  induction dcs with
  | nil =>
    rw [setCs]
    exact compatCs_cons hv (compatCs_nil scs)
  | cons hd rest ih =>
    obtain ⟨k, x⟩ := hd
    unfold compatCs at hc
    rw [Bool.and_eq_true] at hc
    by_cases hk : k = n
    · subst hk
      have h3 := compatCs_cons hv hc.2
      simpa [setCs] using h3
    · have hkc : kindCompat (lookupCs scs k) x := by
        unfold kindCompat
        have h1 := hc.1
        cases hs : lookupCs scs k with
        | none => simp
        | some e =>
          rw [hs] at h1
          cases e <;> cases x <;> simp_all
      simpa [setCs, hk] using compatCs_cons hkc (ih hc.2)

/-- IncrementalBackup.__copy_file and Backup.copy_file share every branch
except the symlink one, so they agree on any source entry that is not a
symlink. -/
theorem copyFileI_eq_copyFileB_of_nonlink (sp dp : FPath) {srcSibs : Cs}
    {n : String} (dst : Cs)
    (h : ∀ t, lookupCs srcSibs n ≠ some (.link t)) :
    copyFileI sp dp srcSibs n dst = copyFileB sp dp srcSibs n dst := by
  unfold copyFileI copyFileB
  cases hs : lookupCs srcSibs n with
  | none => rfl
  | some e =>
    cases e with
    | link t => exact absurd hs (h t)
    | file s m d => simp [hs]
    | dir sub => simp [hs]

theorem copyFileB_dir_noop (sp dp : FPath) {srcSibs : Cs} {n : String}
    {sub : Cs} (dst : Cs) (hsrc : lookupCs srcSibs n = some (.dir sub)) :
    copyFileB sp dp srcSibs n dst = .ok (dst, []) := by
  have hex : existsRes srcSibs n = true :=
    existsRes_of_entry_nonlink hsrc (by intro t h; cases h)
  unfold copyFileB
  rw [hex]
  simp [hsrc]

theorem copyFileM_dir_noop (sp dp : FPath) {srcSibs : Cs} {n : String}
    {sub : Cs} (dst : Cs) (hsrc : lookupCs srcSibs n = some (.dir sub)) :
    copyFileM sp dp srcSibs n dst = .ok (dst, []) := by
  have hex : existsRes srcSibs n = true :=
    existsRes_of_entry_nonlink hsrc (by intro t h; cases h)
  unfold copyFileM
  rw [hex]
  simp [hsrc]

/-- One regular-file step of the base (full and incremental) copy pass,
against a link-free, kind-compatible destination level: it is the
specification step syncStep, with either a copy or a skip event. -/
theorem copyFileB_file_step (sp dp : FPath) {scs dcs : Cs} {n : String}
    {s m d : Nat} (hsrc : lookupCs scs n = some (.file s m d))
    (hlfD : linkFreeCs dcs = true) (hc : compatCs scs dcs = true) :
    ∃ evs, copyFileB sp dp scs n dcs =
      .ok (syncStep dcs n (.file s m d), evs) := by
  have hex : existsRes scs n = true :=
    existsRes_of_entry_nonlink hsrc (by intro t h; cases h)
  unfold copyFileB
  rw [hex]
  simp only [Bool.not_true, Bool.false_eq_true, if_false, hsrc]
  have hfol := follow_of_linkFree hlfD n
  cases hd : lookupCs dcs n with
  | none =>
    have hsc : shouldCopy s m dcs n = true := by
      unfold shouldCopy existsRes
      rw [hfol, hd]
      simp
    rw [hsc]
    unfold copy2At
    rw [hfol, hd]
    simp [syncStep, hd, Except.map]
  | some e =>
    have hkc := compatCs_lookup hc hd
    unfold kindCompat at hkc
    rw [hsrc] at hkc
    cases e with
    | link t => simp at hkc
    | dir sub => simp at hkc
    | file s2 m2 d2 =>
      by_cases heq : s = s2 ∧ m = m2
      · obtain ⟨h1, h2⟩ := heq
        subst h1
        subst h2
        have hsc : shouldCopy s m dcs n = false := by
          unfold shouldCopy existsRes statRes
          rw [hfol, hd]
          simp
        rw [hsc]
        simp [syncStep, hd]
      · have hsc : shouldCopy s m dcs n = true := by
          unfold shouldCopy existsRes statRes
          rw [hfol, hd]
          simp only [Bool.not_true, Bool.false_or]
          rw [Decidable.not_and_iff_or_not] at heq
          rcases heq with h | h <;> simp [bne_iff_ne, h]
        rw [hsc]
        unfold copy2At
        rw [hfol, hd]
        have hstep : syncStep dcs n (.file s m d) = setCs dcs n (.file s m d) := by
          unfold syncStep
          rw [hd]
          rw [Decidable.not_and_iff_or_not] at heq
          rcases heq with h | h <;> simp [h]
        rw [hstep]
        simp [Except.map]

/-- One regular-file step of the mirror copy pass against a link-free,
kind-compatible destination level: the file is written unconditionally,
matching syncStepM, with a copy event. -/
theorem copyFileM_file_step (sp dp : FPath) {scs dcs : Cs} {n : String}
    {s m d : Nat} (hsrc : lookupCs scs n = some (.file s m d))
    (hlfD : linkFreeCs dcs = true) (hc : compatCs scs dcs = true) :
    copyFileM sp dp scs n dcs =
      .ok (syncStepM dcs n (.file s m d),
           [.copyFile (sp ++ [n]) (dp ++ [n])]) := by
  have hex : existsRes scs n = true :=
    existsRes_of_entry_nonlink hsrc (by intro t h; cases h)
  unfold copyFileM
  rw [hex]
  simp only [Bool.not_true, Bool.false_eq_true, if_false, hsrc]
  have hfol := follow_of_linkFree hlfD n
  cases hd : lookupCs dcs n with
  | none =>
    unfold copy2At
    rw [hfol, hd]
    simp [syncStepM, Except.map]
  | some e =>
    have hkc := compatCs_lookup hc hd
    unfold kindCompat at hkc
    rw [hsrc] at hkc
    cases e with
    | link t => simp at hkc
    | dir sub => simp at hkc
    | file s2 m2 d2 =>
      unfold copy2At
      rw [hfol, hd]
      simp [syncStepM, Except.map]

theorem depthN_le_of_lookup {cs : Cs} {n : String} {e : FSNode}
    (h : lookupCs cs n = some e) : depthN e ≤ depthCs cs := by
  induction cs with
  | nil => simp [lookupCs] at h
  | cons hd rest ih =>
    obtain ⟨k, x⟩ := hd
    by_cases hk : k = n
    · subst hk
      simp [lookupCs] at h
      subst h
      simp [depthCs]
    · simp [lookupCs, hk] at h
      calc depthN e ≤ depthCs rest := ih h
        _ ≤ depthCs ((k, x) :: rest) := by simp [depthCs]

theorem nodupTree_of_lookup {cs : Cs} {n : String} {e : FSNode}
    (hnd : nodupCs cs = true) (h : lookupCs cs n = some e) :
    nodupTree e = true := by
  induction cs with
  | nil => simp [lookupCs] at h
  | cons hd rest ih =>
    obtain ⟨k, x⟩ := hd
    simp [nodupCs, Bool.and_eq_true] at hnd
    by_cases hk : k = n
    · subst hk
      simp [lookupCs] at h
      subst h
      exact hnd.1.2
    · simp [lookupCs, hk] at h
      exact ih hnd.2 h

theorem syncStep_file_props {scs dcs : Cs} {n : String} {s m d : Nat}
    (hsrc : lookupCs scs n = some (.file s m d))
    (hlf : linkFreeCs dcs = true) (hnd : nodupCs dcs = true)
    (hc : compatCs scs dcs = true) :
    linkFreeCs (syncStep dcs n (.file s m d)) = true ∧
    nodupCs (syncStep dcs n (.file s m d)) = true ∧
    compatCs scs (syncStep dcs n (.file s m d)) = true := by
  have hkc : kindCompat (lookupCs scs n) (.file s m d) := by
    unfold kindCompat
    rw [hsrc]
    simp
  have hset : linkFreeCs (setCs dcs n (.file s m d)) = true ∧
      nodupCs (setCs dcs n (.file s m d)) = true ∧
      compatCs scs (setCs dcs n (.file s m d)) = true :=
    ⟨linkFreeCs_setCs hlf (by simp [linkFree]),
     nodupCs_setCs hnd (by simp [nodupTree]),
     compatCs_setCs hc hkc⟩
  unfold syncStep
  cases hd : lookupCs dcs n with
  | none => exact hset
  | some e =>
    cases e with
    | file s2 m2 d2 =>
      by_cases he : s == s2 && m == m2
      · simp [he]
        exact ⟨hlf, hnd, hc⟩
      · simp [he]
        exact hset
    | link t => exact hset
    | dir sub => exact hset

theorem syncStep_dir_set {dcs : Cs} {n : String} {sub out : Cs}
    (hout : (match lookupCs dcs n with
             | some (.dir dsub) => out = syncCs sub dsub
             | _ => out = syncCs sub [])) :
    syncStep dcs n (.dir sub) = setCs dcs n (.dir out) := by
  unfold syncStep
  cases hd : lookupCs dcs n with
  | none =>
    rw [hd] at hout
    rw [hout]
  | some e =>
    rw [hd] at hout
    cases e <;> rw [hout]

/-- The copy pass of the full and incremental strategies computes the
specification fold syncCs on link-free, duplicate-free, kind-compatible
trees, and preserves those three invariants; cf is the per-entry routine,
required to agree with the base one on non-symlink sources. -/
theorem copyDir_sync
    (cf : FPath → FPath → Cs → String → Cs → Except Err (Cs × List Ev))
    (hcf : ∀ sp dp sibs n dst, (∀ t, lookupCs sibs n ≠ some (.link t)) →
      cf sp dp sibs n dst = copyFileB sp dp sibs n dst) :
    ∀ fuel : Nat, ∀ scs dcs : Cs, ∀ sp dp : FPath, ∀ slot : Option FSNode,
      createDirectory dp slot = (.dir dcs, []) →
      linkFreeCs scs = true → nodupCs scs = true →
      linkFreeCs dcs = true → nodupCs dcs = true →
      compatCs scs dcs = true →
      depthCs scs < fuel →
      ∃ evs, copyDir cf fuel sp dp scs slot =
          .ok (.dir (syncCs scs dcs), evs) ∧
        linkFreeCs (syncCs scs dcs) = true ∧
        nodupCs (syncCs scs dcs) = true ∧
        compatCs scs (syncCs scs dcs) = true := by
  intro fuel
  induction fuel with
  | zero =>
    intro scs dcs sp dp slot hcd hlfS hndS hlfD hndD hc hdep
    omega
  | succ f ihf =>
    intro scs dcs sp dp slot hcd hlfS hndS hlfD hndD hc hdep
    have hloop : ∀ srcRest : Cs, ∀ dcs2 : Cs,
        (∀ p ∈ srcRest, lookupCs scs p.1 = some p.2) →
        (∀ p ∈ srcRest, depthN p.2 ≤ f) →
        linkFreeCs dcs2 = true → nodupCs dcs2 = true →
        compatCs scs dcs2 = true →
        ∃ evs, copyLoop cf (copyDir cf f) sp dp scs srcRest dcs2 =
            .ok (syncCs srcRest dcs2, evs) ∧
          linkFreeCs (syncCs srcRest dcs2) = true ∧
          nodupCs (syncCs srcRest dcs2) = true ∧
          compatCs scs (syncCs srcRest dcs2) = true := by
      intro srcRest
      induction srcRest with
      | nil =>
        intro dcs2 hmem hdepE hlfD2 hndD2 hc2
        exact ⟨[], by simp [copyLoop, syncCs], by simp [syncCs, hlfD2],
          by simp [syncCs, hndD2], by simp [syncCs, hc2]⟩
      | cons hd rest ihr =>
        obtain ⟨n, e⟩ := hd
        intro dcs2 hmem hdepE hlfD2 hndD2 hc2
        have hsrc : lookupCs scs n = some e := hmem (n, e) (by simp)
        have hlfe : linkFree e = true := linkFreeCs_lookup hlfS hsrc
        have hfolS := follow_of_linkFree hlfS n
        cases e with
        | link t => simp [linkFree] at hlfe
        | file s m d =>
          obtain ⟨evs1, hstep⟩ := copyFileB_file_step sp dp hsrc hlfD2 hc2
          have hcf1 : cf sp dp scs n dcs2 = copyFileB sp dp scs n dcs2 :=
            hcf sp dp scs n dcs2 (by intro t ht; rw [hsrc] at ht; cases ht)
          have hprops := syncStep_file_props hsrc hlfD2 hndD2 hc2
          obtain ⟨evs2, hrun2, hp1, hp2, hp3⟩ := ihr (syncStep dcs2 n (.file s m d))
            (fun p hp => hmem p (by simp [hp]))
            (fun p hp => hdepE p (by simp [hp]))
            hprops.1 hprops.2.1 hprops.2.2
          refine ⟨evs1 ++ evs2, ?_, ?_, ?_, ?_⟩
          · rw [copyLoop]
            rw [hcf1, hstep]
            simp only [Except.bind, bind]
            rw [hfolS, hsrc]
            simp only []
            rw [hrun2]
            simp [syncCs]
          · simpa [syncCs] using hp1
          · simpa [syncCs] using hp2
          · simpa [syncCs] using hp3
        | dir sub =>
          have hcf1 : cf sp dp scs n dcs2 = copyFileB sp dp scs n dcs2 :=
            hcf sp dp scs n dcs2 (by intro t ht; rw [hsrc] at ht; cases ht)
          have hnoop := copyFileB_dir_noop sp dp dcs2 hsrc
          have hlfSub : linkFreeCs sub = true := by
            have := linkFreeCs_lookup hlfS hsrc
            simpa [linkFree] using this
          have hndSub : nodupCs sub = true := by
            have := nodupTree_of_lookup hndS hsrc
            simpa [nodupTree] using this
          have hdepSub : depthCs sub < f := by
            have h1 := hdepE (n, .dir sub) (by simp)
            simp [depthN] at h1
            omega
          -- the destination slot for the child, by compatibility either a
          -- missing entry or a directory
          cases hd2 : lookupCs dcs2 n with
          | none =>
            obtain ⟨evs2, hrun2, hq1, hq2, hq3⟩ := ihf sub [] (sp ++ [n])
              (dp ++ [n]) none rfl hlfSub hndSub rfl rfl (compatCs_nil sub)
              hdepSub
            have hset : syncStep dcs2 n (.dir sub) =
                setCs dcs2 n (.dir (syncCs sub [])) :=
              syncStep_dir_set (by rw [hd2])
            have hprops : linkFreeCs (syncStep dcs2 n (.dir sub)) = true ∧
                nodupCs (syncStep dcs2 n (.dir sub)) = true ∧
                compatCs scs (syncStep dcs2 n (.dir sub)) = true := by
              rw [hset]
              refine ⟨linkFreeCs_setCs hlfD2 (by simp [linkFree, hq1]),
                nodupCs_setCs hndD2 (by simp [nodupTree, hq2]),
                compatCs_setCs hc2 ?_⟩
              unfold kindCompat
              rw [hsrc]
              exact hq3
            obtain ⟨evs3, hrun3, hp1, hp2, hp3⟩ := ihr (syncStep dcs2 n (.dir sub))
              (fun p hp => hmem p (by simp [hp]))
              (fun p hp => hdepE p (by simp [hp]))
              hprops.1 hprops.2.1 hprops.2.2
            refine ⟨[] ++ evs2 ++ evs3, ?_, ?_, ?_, ?_⟩
            · rw [copyLoop]
              rw [hcf1, hnoop]
              simp only [Except.bind, bind]
              rw [hfolS, hsrc]
              simp only [hd2]
              rw [hrun2]
              simp only [Except.bind, bind]
              rw [hset] at hrun3
              rw [hrun3]
              simp [syncCs, hset]
            · simpa [syncCs] using hp1
            · simpa [syncCs] using hp2
            · simpa [syncCs] using hp3
          | some dchild =>
            have hkc := compatCs_lookup hc2 hd2
            unfold kindCompat at hkc
            rw [hsrc] at hkc
            cases dchild with
            | file s2 m2 d2 => simp at hkc
            | link t2 => simp at hkc
            | dir dsub =>
              have hlfDsub : linkFreeCs dsub = true := by
                have := linkFreeCs_lookup hlfD2 hd2
                simpa [linkFree] using this
              have hndDsub : nodupCs dsub = true := by
                have := nodupTree_of_lookup hndD2 hd2
                simpa [nodupTree] using this
              obtain ⟨evs2, hrun2, hq1, hq2, hq3⟩ := ihf sub dsub (sp ++ [n])
                (dp ++ [n]) (some (.dir dsub)) rfl hlfSub hndSub hlfDsub
                hndDsub hkc hdepSub
              have hset : syncStep dcs2 n (.dir sub) =
                  setCs dcs2 n (.dir (syncCs sub dsub)) :=
                syncStep_dir_set (by rw [hd2])
              have hprops : linkFreeCs (syncStep dcs2 n (.dir sub)) = true ∧
                  nodupCs (syncStep dcs2 n (.dir sub)) = true ∧
                  compatCs scs (syncStep dcs2 n (.dir sub)) = true := by
                rw [hset]
                refine ⟨linkFreeCs_setCs hlfD2 (by simp [linkFree, hq1]),
                  nodupCs_setCs hndD2 (by simp [nodupTree, hq2]),
                  compatCs_setCs hc2 ?_⟩
                unfold kindCompat
                rw [hsrc]
                exact hq3
              obtain ⟨evs3, hrun3, hp1, hp2, hp3⟩ := ihr
                (syncStep dcs2 n (.dir sub))
                (fun p hp => hmem p (by simp [hp]))
                (fun p hp => hdepE p (by simp [hp]))
                hprops.1 hprops.2.1 hprops.2.2
              refine ⟨[] ++ evs2 ++ evs3, ?_, ?_, ?_, ?_⟩
              · rw [copyLoop]
                rw [hcf1, hnoop]
                simp only [Except.bind, bind]
                rw [hfolS, hsrc]
                simp only [hd2]
                rw [hrun2]
                simp only [Except.bind, bind]
                rw [hset] at hrun3
                rw [hrun3]
                simp [syncCs, hset]
              · simpa [syncCs] using hp1
              · simpa [syncCs] using hp2
              · simpa [syncCs] using hp3
    have hmem0 : ∀ p ∈ scs, lookupCs scs p.1 = some p.2 := by
      intro p hp
      obtain ⟨n, e⟩ := p
      exact lookupCs_of_mem_nodup hndS hp
    have hdep0 : ∀ p ∈ scs, depthN p.2 ≤ f := by
      intro p hp
      obtain ⟨n, e⟩ := p
      have h1 : depthN e ≤ depthCs scs :=
        depthN_le_of_lookup (lookupCs_of_mem_nodup hndS hp)
      show depthN e ≤ f
      omega
    obtain ⟨evs, hrun, hq1, hq2, hq3⟩ := hloop scs dcs hmem0 hdep0 hlfD hndD hc
    refine ⟨.infoCopying :: evs, ?_, hq1, hq2, hq3⟩
    rw [copyDir]
    rw [hcd]
    simp only []
    rw [hrun]
    simp [Except.map]

theorem shouldCopy_self_false {dst : Cs} {n : String} {s m d2 : Nat}
    (hlf : linkFreeCs dst = true) (hd : lookupCs dst n = some (.file s m d2)) :
    shouldCopy s m dst n = false := by
  unfold shouldCopy existsRes statRes
  rw [follow_of_linkFree hlf, hd]
  simp

theorem copyFileB_skip_eq (sp dp : FPath) {scs dst : Cs} {n : String}
    {s m d : Nat} (hsrc : lookupCs scs n = some (.file s m d))
    (hsk : shouldCopy s m dst n = false) :
    copyFileB sp dp scs n dst = .ok (dst, [.skipUnchanged (sp ++ [n])]) := by
  have hex : existsRes scs n = true :=
    existsRes_of_entry_nonlink hsrc (by intro t h; cases h)
  unfold copyFileB
  rw [hex]
  simp [hsrc, hsk]

theorem fileAtN_dir_cases {cs : Cs} {p : FPath}
    (h : fileAtN (.dir cs) p = true) :
    ∃ n q e, p = n :: q ∧ lookupCs cs n = some e ∧ fileAtN e q = true := by
  cases p with
  | nil => simp [fileAtN, lookupPathN] at h
  | cons n q =>
    unfold fileAtN lookupPathN at h
    cases he : lookupCs cs n with
    | none =>
      rw [he] at h
      simp at h
    | some e =>
      rw [he] at h
      exact ⟨n, q, e, rfl, he, by unfold fileAtN; exact h⟩

/-- A full or incremental copy pass whose destination level already equals
the link-free source level: the destination is returned unchanged, no
copy event (file or symlink) is emitted, and every regular file of the
subtree is classified skip-unchanged. -/
theorem copyDir_self_skips
    (cf : FPath → FPath → Cs → String → Cs → Except Err (Cs × List Ev))
    (hcf : ∀ sp dp sibs n dst, (∀ t, lookupCs sibs n ≠ some (.link t)) →
      cf sp dp sibs n dst = copyFileB sp dp sibs n dst) :
    ∀ fuel : Nat, ∀ scs : Cs, ∀ sp dp : FPath, ∀ slot : Option FSNode,
      createDirectory dp slot = (.dir scs, []) →
      linkFreeCs scs = true → nodupCs scs = true →
      depthCs scs < fuel →
      ∃ evs, copyDir cf fuel sp dp scs slot = .ok (.dir scs, evs) ∧
        (∀ a b, Ev.copyFile a b ∉ evs) ∧
        (∀ a b, Ev.copyLink a b ∉ evs) ∧
        (∀ q, fileAtN (.dir scs) q = true →
          Ev.skipUnchanged (sp ++ q) ∈ evs) := by
  intro fuel
  induction fuel with
  | zero =>
    intro scs sp dp slot hcd hlfS hndS hdep
    omega
  | succ f ihf =>
    intro scs sp dp slot hcd hlfS hndS hdep
    have hloop : ∀ srcRest : Cs,
        (∀ p ∈ srcRest, lookupCs scs p.1 = some p.2) →
        (∀ p ∈ srcRest, depthN p.2 ≤ f) →
        ∃ evs, copyLoop cf (copyDir cf f) sp dp scs srcRest scs =
            .ok (scs, evs) ∧
          (∀ a b, Ev.copyFile a b ∉ evs) ∧
          (∀ a b, Ev.copyLink a b ∉ evs) ∧
          (∀ n e, (n, e) ∈ srcRest → ∀ q, fileAtN e q = true →
            Ev.skipUnchanged (sp ++ n :: q) ∈ evs) := by
      intro srcRest
      induction srcRest with
      | nil =>
        intro hmem hdepE
        refine ⟨[], by simp [copyLoop], by simp, by simp, by simp⟩
      | cons hd rest ihr =>
        obtain ⟨n, e⟩ := hd
        intro hmem hdepE
        have hsrc : lookupCs scs n = some e := hmem (n, e) (by simp)
        have hlfe : linkFree e = true := linkFreeCs_lookup hlfS hsrc
        have hfolS := follow_of_linkFree hlfS n
        obtain ⟨evs2, hrun2, hnc2, hnl2, hsk2⟩ := ihr
          (fun p hp => hmem p (by simp [hp]))
          (fun p hp => hdepE p (by simp [hp]))
        cases e with
        | link t => simp [linkFree] at hlfe
        | file s m d =>
          have hcf1 : cf sp dp scs n scs = copyFileB sp dp scs n scs :=
            hcf sp dp scs n scs (by intro t ht; rw [hsrc] at ht; cases ht)
          have hstep := copyFileB_skip_eq sp dp hsrc
            (shouldCopy_self_false hlfS hsrc)
          refine ⟨[.skipUnchanged (sp ++ [n])] ++ evs2, ?_, ?_, ?_, ?_⟩
          · rw [copyLoop]
            rw [hcf1, hstep]
            simp only [Except.bind, bind]
            rw [hfolS, hsrc]
            simp only []
            rw [hrun2]
          · intro a b hab
            rcases List.mem_append.mp hab with h | h
            · simp at h
            · exact hnc2 a b h
          · intro a b hab
            rcases List.mem_append.mp hab with h | h
            · simp at h
            · exact hnl2 a b h
          · intro n2 e2 hmem2 q hq
            rcases List.mem_cons.mp hmem2 with h1 | h2
            · injection h1 with ha hb
              subst ha
              subst hb
              cases q with
              | nil => exact List.mem_append.mpr (Or.inl (by simp))
              | cons a q2 => simp [fileAtN, lookupPathN] at hq
            · exact List.mem_append.mpr (Or.inr (hsk2 n2 e2 h2 q hq))
        | dir sub =>
          have hcf1 : cf sp dp scs n scs = copyFileB sp dp scs n scs :=
            hcf sp dp scs n scs (by intro t ht; rw [hsrc] at ht; cases ht)
          have hnoop := copyFileB_dir_noop sp dp scs hsrc
          have hlfSub : linkFreeCs sub = true := by
            have := linkFreeCs_lookup hlfS hsrc
            simpa [linkFree] using this
          have hndSub : nodupCs sub = true := by
            have := nodupTree_of_lookup hndS hsrc
            simpa [nodupTree] using this
          have hdepSub : depthCs sub < f := by
            have h1 := hdepE (n, .dir sub) (by simp)
            simp [depthN] at h1
            omega
          obtain ⟨evs1, hrun1, hnc1, hnl1, hsk1⟩ := ihf sub (sp ++ [n])
            (dp ++ [n]) (some (.dir sub)) rfl hlfSub hndSub hdepSub
          have hsetid : setCs scs n (.dir sub) = scs := setCs_eq_of_lookup hsrc
          refine ⟨[] ++ evs1 ++ evs2, ?_, ?_, ?_, ?_⟩
          · rw [copyLoop]
            rw [hcf1, hnoop]
            simp only [Except.bind, bind]
            rw [hfolS, hsrc]
            simp only [hsrc]
            rw [hrun1]
            simp only [Except.bind, bind]
            rw [hsetid, hrun2]
          · intro a b hab
            rw [List.nil_append] at hab
            rcases List.mem_append.mp hab with h | h
            · exact hnc1 a b h
            · exact hnc2 a b h
          · intro a b hab
            rw [List.nil_append] at hab
            rcases List.mem_append.mp hab with h | h
            · exact hnl1 a b h
            · exact hnl2 a b h
          · intro n2 e2 hmem2 q hq
            rw [List.nil_append]
            rcases List.mem_cons.mp hmem2 with h1 | h2
            · injection h1 with ha hb
              subst ha
              subst hb
              have h3 := hsk1 q hq
              rw [List.append_cons]
              exact List.mem_append.mpr (Or.inl h3)
            · exact List.mem_append.mpr (Or.inr (hsk2 n2 e2 h2 q hq))
    have hmem0 : ∀ p ∈ scs, lookupCs scs p.1 = some p.2 := by
      intro p hp
      obtain ⟨n, e⟩ := p
      exact lookupCs_of_mem_nodup hndS hp
    have hdep0 : ∀ p ∈ scs, depthN p.2 ≤ f := by
      intro p hp
      obtain ⟨n, e⟩ := p
      have h1 : depthN e ≤ depthCs scs :=
        depthN_le_of_lookup (lookupCs_of_mem_nodup hndS hp)
      show depthN e ≤ f
      omega
    obtain ⟨evs, hrun, hnc, hnl, hsk⟩ := hloop scs hmem0 hdep0
    refine ⟨.infoCopying :: evs, ?_, ?_, ?_, ?_⟩
    · rw [copyDir]
      rw [hcd]
      simp only []
      rw [hrun]
      simp [Except.map]
    · intro a b hab
      rcases List.mem_cons.mp hab with h | h
      · simp at h
      · exact hnc a b h
    · intro a b hab
      rcases List.mem_cons.mp hab with h | h
      · simp at h
      · exact hnl a b h
    · intro q hq
      obtain ⟨n, q2, e, hp, hlk, hf⟩ := fileAtN_dir_cases hq
      subst hp
      exact List.mem_cons.mpr (Or.inr (hsk n e (mem_of_lookupCs hlk) q2 hf))

theorem syncStepM_file_props {scs dcs : Cs} {n : String} {s m d : Nat}
    (hsrc : lookupCs scs n = some (.file s m d))
    (hlf : linkFreeCs dcs = true) (hnd : nodupCs dcs = true)
    (hc : compatCs scs dcs = true) :
    linkFreeCs (syncStepM dcs n (.file s m d)) = true ∧
    nodupCs (syncStepM dcs n (.file s m d)) = true ∧
    compatCs scs (syncStepM dcs n (.file s m d)) = true := by
  have hkc : kindCompat (lookupCs scs n) (.file s m d) := by
    unfold kindCompat
    rw [hsrc]
    simp
  unfold syncStepM
  exact ⟨linkFreeCs_setCs hlf (by simp [linkFree]),
    nodupCs_setCs hnd (by simp [nodupTree]),
    compatCs_setCs hc hkc⟩

theorem syncStepM_dir_set {dcs : Cs} {n : String} {sub out : Cs}
    (hout : (match lookupCs dcs n with
             | some (.dir dsub) => out = syncCsM sub dsub
             | _ => out = syncCsM sub [])) :
    syncStepM dcs n (.dir sub) = setCs dcs n (.dir out) := by
  unfold syncStepM
  cases hd : lookupCs dcs n with
  | none =>
    rw [hd] at hout
    rw [hout]
  | some e =>
    rw [hd] at hout
    cases e <;> rw [hout]

/-- The mirror copy pass computes the specification fold syncCsM on
link-free, duplicate-free, kind-compatible trees, preserving those three
invariants. -/
theorem copyDir_syncM :
    ∀ fuel : Nat, ∀ scs dcs : Cs, ∀ sp dp : FPath, ∀ slot : Option FSNode,
      createDirectory dp slot = (.dir dcs, []) →
      linkFreeCs scs = true → nodupCs scs = true →
      linkFreeCs dcs = true → nodupCs dcs = true →
      compatCs scs dcs = true →
      depthCs scs < fuel →
      ∃ evs, copyDir copyFileM fuel sp dp scs slot =
          .ok (.dir (syncCsM scs dcs), evs) ∧
        linkFreeCs (syncCsM scs dcs) = true ∧
        nodupCs (syncCsM scs dcs) = true ∧
        compatCs scs (syncCsM scs dcs) = true := by
  intro fuel
  induction fuel with
  | zero =>
    intro scs dcs sp dp slot hcd hlfS hndS hlfD hndD hc hdep
    omega
  | succ f ihf =>
    intro scs dcs sp dp slot hcd hlfS hndS hlfD hndD hc hdep
    have hloop : ∀ srcRest : Cs, ∀ dcs2 : Cs,
        (∀ p ∈ srcRest, lookupCs scs p.1 = some p.2) →
        (∀ p ∈ srcRest, depthN p.2 ≤ f) →
        linkFreeCs dcs2 = true → nodupCs dcs2 = true →
        compatCs scs dcs2 = true →
        ∃ evs, copyLoop copyFileM (copyDir copyFileM f) sp dp scs srcRest dcs2 =
            .ok (syncCsM srcRest dcs2, evs) ∧
          linkFreeCs (syncCsM srcRest dcs2) = true ∧
          nodupCs (syncCsM srcRest dcs2) = true ∧
          compatCs scs (syncCsM srcRest dcs2) = true := by
      intro srcRest
      induction srcRest with
      | nil =>
        intro dcs2 hmem hdepE hlfD2 hndD2 hc2
        exact ⟨[], by simp [copyLoop, syncCsM], by simp [syncCsM, hlfD2],
          by simp [syncCsM, hndD2], by simp [syncCsM, hc2]⟩
      | cons hd rest ihr =>
        obtain ⟨n, e⟩ := hd
        intro dcs2 hmem hdepE hlfD2 hndD2 hc2
        have hsrc : lookupCs scs n = some e := hmem (n, e) (by simp)
        have hlfe : linkFree e = true := linkFreeCs_lookup hlfS hsrc
        have hfolS := follow_of_linkFree hlfS n
        cases e with
        | link t => simp [linkFree] at hlfe
        | file s m d =>
          have hstep := copyFileM_file_step sp dp hsrc hlfD2 hc2
          have hprops := syncStepM_file_props hsrc hlfD2 hndD2 hc2
          obtain ⟨evs2, hrun2, hp1, hp2, hp3⟩ := ihr
            (syncStepM dcs2 n (.file s m d))
            (fun p hp => hmem p (by simp [hp]))
            (fun p hp => hdepE p (by simp [hp]))
            hprops.1 hprops.2.1 hprops.2.2
          refine ⟨[.copyFile (sp ++ [n]) (dp ++ [n])] ++ evs2, ?_, ?_, ?_, ?_⟩
          · rw [copyLoop]
            rw [hstep]
            simp only [Except.bind, bind]
            rw [hfolS, hsrc]
            simp only []
            rw [hrun2]
            simp [syncCsM]
          · simpa [syncCsM] using hp1
          · simpa [syncCsM] using hp2
          · simpa [syncCsM] using hp3
        | dir sub =>
          have hnoop := copyFileM_dir_noop sp dp dcs2 hsrc
          have hlfSub : linkFreeCs sub = true := by
            have := linkFreeCs_lookup hlfS hsrc
            simpa [linkFree] using this
          have hndSub : nodupCs sub = true := by
            have := nodupTree_of_lookup hndS hsrc
            simpa [nodupTree] using this
          have hdepSub : depthCs sub < f := by
            have h1 := hdepE (n, .dir sub) (by simp)
            simp [depthN] at h1
            omega
          cases hd2 : lookupCs dcs2 n with
          | none =>
            obtain ⟨evs2, hrun2, hq1, hq2, hq3⟩ := ihf sub [] (sp ++ [n])
              (dp ++ [n]) none rfl hlfSub hndSub rfl rfl (compatCs_nil sub)
              hdepSub
            have hset : syncStepM dcs2 n (.dir sub) =
                setCs dcs2 n (.dir (syncCsM sub [])) :=
              syncStepM_dir_set (by rw [hd2])
            have hprops : linkFreeCs (syncStepM dcs2 n (.dir sub)) = true ∧
                nodupCs (syncStepM dcs2 n (.dir sub)) = true ∧
                compatCs scs (syncStepM dcs2 n (.dir sub)) = true := by
              rw [hset]
              refine ⟨linkFreeCs_setCs hlfD2 (by simp [linkFree, hq1]),
                nodupCs_setCs hndD2 (by simp [nodupTree, hq2]),
                compatCs_setCs hc2 ?_⟩
              unfold kindCompat
              rw [hsrc]
              exact hq3
            obtain ⟨evs3, hrun3, hp1, hp2, hp3⟩ := ihr
              (syncStepM dcs2 n (.dir sub))
              (fun p hp => hmem p (by simp [hp]))
              (fun p hp => hdepE p (by simp [hp]))
              hprops.1 hprops.2.1 hprops.2.2
            refine ⟨[] ++ evs2 ++ evs3, ?_, ?_, ?_, ?_⟩
            · rw [copyLoop]
              rw [hnoop]
              simp only [Except.bind, bind]
              rw [hfolS, hsrc]
              simp only [hd2]
              rw [hrun2]
              simp only [Except.bind, bind]
              rw [hset] at hrun3
              rw [hrun3]
              simp [syncCsM, hset]
            · simpa [syncCsM] using hp1
            · simpa [syncCsM] using hp2
            · simpa [syncCsM] using hp3
          | some dchild =>
            have hkc := compatCs_lookup hc2 hd2
            unfold kindCompat at hkc
            rw [hsrc] at hkc
            cases dchild with
            | file s2 m2 d2 => simp at hkc
            | link t2 => simp at hkc
            | dir dsub =>
              have hlfDsub : linkFreeCs dsub = true := by
                have := linkFreeCs_lookup hlfD2 hd2
                simpa [linkFree] using this
              have hndDsub : nodupCs dsub = true := by
                have := nodupTree_of_lookup hndD2 hd2
                simpa [nodupTree] using this
              obtain ⟨evs2, hrun2, hq1, hq2, hq3⟩ := ihf sub dsub (sp ++ [n])
                (dp ++ [n]) (some (.dir dsub)) rfl hlfSub hndSub hlfDsub
                hndDsub hkc hdepSub
              have hset : syncStepM dcs2 n (.dir sub) =
                  setCs dcs2 n (.dir (syncCsM sub dsub)) :=
                syncStepM_dir_set (by rw [hd2])
              have hprops : linkFreeCs (syncStepM dcs2 n (.dir sub)) = true ∧
                  nodupCs (syncStepM dcs2 n (.dir sub)) = true ∧
                  compatCs scs (syncStepM dcs2 n (.dir sub)) = true := by
                rw [hset]
                refine ⟨linkFreeCs_setCs hlfD2 (by simp [linkFree, hq1]),
                  nodupCs_setCs hndD2 (by simp [nodupTree, hq2]),
                  compatCs_setCs hc2 ?_⟩
                unfold kindCompat
                rw [hsrc]
                exact hq3
              obtain ⟨evs3, hrun3, hp1, hp2, hp3⟩ := ihr
                (syncStepM dcs2 n (.dir sub))
                (fun p hp => hmem p (by simp [hp]))
                (fun p hp => hdepE p (by simp [hp]))
                hprops.1 hprops.2.1 hprops.2.2
              refine ⟨[] ++ evs2 ++ evs3, ?_, ?_, ?_, ?_⟩
              · rw [copyLoop]
                rw [hnoop]
                simp only [Except.bind, bind]
                rw [hfolS, hsrc]
                simp only [hd2]
                rw [hrun2]
                simp only [Except.bind, bind]
                rw [hset] at hrun3
                rw [hrun3]
                simp [syncCsM, hset]
              · simpa [syncCsM] using hp1
              · simpa [syncCsM] using hp2
              · simpa [syncCsM] using hp3
    have hmem0 : ∀ p ∈ scs, lookupCs scs p.1 = some p.2 := by
      intro p hp
      obtain ⟨n, e⟩ := p
      exact lookupCs_of_mem_nodup hndS hp
    have hdep0 : ∀ p ∈ scs, depthN p.2 ≤ f := by
      intro p hp
      obtain ⟨n, e⟩ := p
      have h1 : depthN e ≤ depthCs scs :=
        depthN_le_of_lookup (lookupCs_of_mem_nodup hndS hp)
      show depthN e ≤ f
      omega
    obtain ⟨evs, hrun, hq1, hq2, hq3⟩ := hloop scs dcs hmem0 hdep0 hlfD hndD hc
    refine ⟨.infoCopying :: evs, ?_, hq1, hq2, hq3⟩
    rw [copyDir]
    rw [hcd]
    simp only []
    rw [hrun]
    simp [Except.map]

theorem removeCs_subset {cs : Cs} {n : String} :
    ∀ p ∈ removeCs cs n, p ∈ cs := by
  induction cs with
  | nil => simp [removeCs]
  | cons hd rest ih =>
    obtain ⟨k, x⟩ := hd
    by_cases hk : k = n
    · subst hk
      rw [removeCs]
      simp only [if_pos rfl]
      intro p hp
      exact List.mem_cons_of_mem _ hp
    · simp only [removeCs, if_neg hk]
      intro p hp
      rcases List.mem_cons.mp hp with h1 | h2
      · exact List.mem_cons.mpr (Or.inl h1)
      · exact List.mem_cons.mpr (Or.inr (ih p h2))

theorem noTopLink_of_forall {cs : Cs}
    (h : ∀ p ∈ cs, nonLink p.2 = true) : noTopLink cs = true :=
  List.all_eq_true.mpr h

theorem forall_of_noTopLink {cs : Cs} (h : noTopLink cs = true) :
    ∀ p ∈ cs, nonLink p.2 = true :=
  List.all_eq_true.mp h

theorem noTopLink_removeCs {cs : Cs} (n : String) (h : noTopLink cs = true) :
    noTopLink (removeCs cs n) = true :=
  noTopLink_of_forall fun p hp =>
    forall_of_noTopLink h p (removeCs_subset p hp)

theorem removeCs_cons_ne {cur : Cs} {k m : String} {x : FSNode} (h : k ≠ m) :
    removeCs ((k, x) :: cur) m = (k, x) :: removeCs cur m := by
  simp [removeCs, h]

theorem setCs_cons_ne {cur : Cs} {k m : String} {x v : FSNode} (h : k ≠ m) :
    setCs ((k, x) :: cur) m v = (k, x) :: setCs cur m v := by
  simp [setCs, h]

/-- A destination binding whose name the remaining snapshot does not
mention rides along unchanged through the pruning loop: every lookup,
removal and update the loop performs happens at other names (sibling
resolution is trivial since no top-level entry is a link). -/
theorem pruneLoop_cons
    (recurse : FPath → Option FSNode → Cs → Except Err (Cs × List Ev))
    (dp : FPath) (srcSlot : Option FSNode) :
    ∀ (names : List String) (cur : Cs) (k : String) (x : FSNode),
      k ∉ names → noTopLink cur = true → nonLink x = true →
      pruneLoop recurse dp srcSlot names ((k, x) :: cur) =
        (pruneLoop recurse dp srcSlot names cur).map
          (fun p => ((k, x) :: p.1, p.2)) := by
  intro names
  induction names with
  | nil =>
    intro cur k x hk hntl hx
    simp [pruneLoop, Except.map]
  | cons m rest ih =>
    intro cur k x hk hntl hx
    have hkm : k ≠ m := by
      intro h
      exact hk (by simp [h])
    have hkrest : k ∉ rest := fun h => hk (by simp [h])
    have hcons : noTopLink ((k, x) :: cur) = true := by
      simp only [noTopLink, List.all_cons, Bool.and_eq_true]
      exact ⟨hx, hntl⟩
    have hfolC := follow_of_noTopLink hcons m
    have hfol := follow_of_noTopLink hntl m
    have hlkm : lookupCs ((k, x) :: cur) m = lookupCs cur m := by
      simp [lookupCs, hkm]
    have hif : isFileRes ((k, x) :: cur) m = isFileRes cur m := by
      unfold isFileRes
      rw [hfolC, hfol, hlkm]
    have hid : isDirRes ((k, x) :: cur) m = isDirRes cur m := by
      unfold isDirRes
      rw [hfolC, hfol, hlkm]
    rw [pruneLoop, pruneLoop]
    rw [hif, hid, hfolC, hfol, hlkm]
    by_cases hfb : (isFileRes cur m && !srcHasB srcSlot m) = true
    · rw [if_pos hfb, if_pos hfb]
      have hfile : isFileRes cur m = true := by
        rw [Bool.and_eq_true] at hfb
        exact hfb.1
      unfold isFileRes at hfile
      rw [hfol] at hfile
      cases hlm : lookupCs cur m with
      | none =>
        rw [hlm] at hfile
        simp at hfile
      | some e =>
        rw [hlm] at hfile
        cases e with
        | dir sub => simp at hfile
        | link t => simp at hfile
        | file s mt d =>
          have hremC : osRemove ((k, x) :: cur) m =
              .ok ((k, x) :: removeCs cur m) := by
            unfold osRemove
            rw [hlkm, hlm, removeCs_cons_ne hkm]
          have hrem : osRemove cur m = .ok (removeCs cur m) := by
            unfold osRemove
            rw [hlm]
          rw [hremC, hrem]
          simp only [Except.bind, bind]
          rw [ih (removeCs cur m) k x hkrest
            (noTopLink_removeCs m hntl) hx]
          cases hP : pruneLoop recurse dp srcSlot rest (removeCs cur m) with
          | error e2 => simp [Except.map]
          | ok p => simp [Except.map]
    · rw [if_neg hfb, if_neg hfb]
      by_cases hdb : isDirRes cur m = true
      · rw [if_pos hdb, if_pos hdb]
        have hdir := hdb
        unfold isDirRes at hdir
        rw [hfol] at hdir
        cases hlm : lookupCs cur m with
        | none =>
          rw [hlm] at hdir
          simp at hdir
        | some e =>
          rw [hlm] at hdir
          cases e with
          | file s mt d => simp at hdir
          | link t => simp at hdir
          | dir sub =>
            simp only []
            cases hR : recurse (dp ++ [m]) (srcChildOf srcSlot m) sub with
            | error e2 => simp [Except.bind, bind, hR, Except.map]
            | ok p1 =>
              simp only [Except.bind, bind, hR]
              rw [setCs_cons_ne hkm]
              rw [ih (setCs cur m (.dir p1.1)) k x hkrest
                (noTopLink_setCs hntl (by simp [nonLink])) hx]
              cases hP : pruneLoop recurse dp srcSlot rest
                  (setCs cur m (.dir p1.1)) with
              | error e2 => simp [Except.map]
              | ok p2 => simp [Except.map]
      · rw [if_neg hdb, if_neg hdb]
        exact ih cur k x hkrest hntl hx

/-- The pruning pass on a link-free, duplicate-free destination level
computes the pure specification pruneSpecCs, and logs a deletion for
every regular file whose source counterpart does not exist. -/
theorem pruneDir_spec :
    ∀ fuel : Nat, ∀ dcs : Cs, ∀ dp : FPath, ∀ srcSlot : Option FSNode,
      linkFreeCs dcs = true → nodupCs dcs = true → depthCs dcs < fuel →
      ∃ evs, pruneDir fuel dp srcSlot dcs =
          .ok (pruneSpecCs srcSlot dcs, evs) ∧
        (∀ n s m d, lookupCs dcs n = some (.file s m d) →
          srcHasB srcSlot n = false → Ev.delete (dp ++ [n]) ∈ evs) := by
  intro fuel
  induction fuel with
  | zero =>
    intro dcs dp srcSlot hlf hnd hdep
    omega
  | succ f ihf =>
    intro dcs dp srcSlot hlf hnd hdep0
    have hdep : ∀ p ∈ dcs, depthN p.2 ≤ f := by
      intro p hp
      obtain ⟨n, e⟩ := p
      have h1 : depthN e ≤ depthCs dcs :=
        depthN_le_of_lookup (lookupCs_of_mem_nodup hnd hp)
      show depthN e ≤ f
      omega
    have hloop : ∀ cur : Cs, linkFreeCs cur = true → nodupCs cur = true →
        (∀ p ∈ cur, depthN p.2 ≤ f) →
        ∃ evs, pruneLoop (pruneDir f) dp srcSlot (keys cur) cur =
            .ok (pruneSpecCs srcSlot cur, evs) ∧
          (∀ n s m d, lookupCs cur n = some (.file s m d) →
            srcHasB srcSlot n = false → Ev.delete (dp ++ [n]) ∈ evs) := by
      intro cur
      induction cur with
      | nil =>
        intro hlf2 hnd2 hdep2
        exact ⟨[], by simp [keys, pruneLoop, pruneSpecCs],
          by intro n s m d h; simp [lookupCs] at h⟩
      | cons hd rest ihr =>
        obtain ⟨n, e⟩ := hd
        intro hlf2 hnd2 hdep2
        have hlfE : linkFree e = true := by
          rw [linkFreeCs, Bool.and_eq_true] at hlf2
          exact hlf2.1
        have hlfR : linkFreeCs rest = true := by
          rw [linkFreeCs, Bool.and_eq_true] at hlf2
          exact hlf2.2
        have hndE : nodupTree e = true := by
          simp [nodupCs, Bool.and_eq_true] at hnd2
          exact hnd2.1.2
        have hndR : nodupCs rest = true := by
          simp [nodupCs, Bool.and_eq_true] at hnd2
          exact hnd2.2
        have hnk : n ∉ keys rest := by
          simp [nodupCs, Bool.and_eq_true] at hnd2
          exact hnd2.1.1
        have hntl : noTopLink ((n, e) :: rest) = true :=
          linkFreeCs_noTopLink hlf2
        have hntlR : noTopLink rest = true := linkFreeCs_noTopLink hlfR
        have hlkn : lookupCs ((n, e) :: rest) n = some e := by
          simp [lookupCs]
        have hfol := follow_of_noTopLink hntl n
        have hkeys : keys ((n, e) :: rest) = n :: keys rest := by
          simp [keys]
        obtain ⟨evs2, hrun2, hdel2⟩ := ihr hlfR hndR
          (fun p hp => hdep2 p (by simp [hp]))
        rw [hkeys, pruneLoop]
        cases e with
        | link t => simp [linkFree] at hlfE
        | file s m d =>
          have hifr : isFileRes ((n, .file s m d) :: rest) n = true := by
            unfold isFileRes
            rw [hfol, hlkn]
          have hidr : isDirRes ((n, .file s m d) :: rest) n = false := by
            unfold isDirRes
            rw [hfol, hlkn]
          by_cases hsh : srcHasB srcSlot n = true
          · have hcond : (isFileRes ((n, .file s m d) :: rest) n &&
                !srcHasB srcSlot n) = false := by
              rw [hifr, hsh]
              rfl
            have hc1 : ¬((isFileRes ((n, .file s m d) :: rest) n &&
                !srcHasB srcSlot n) = true) := by
              rw [hcond]
              simp
            have hc2 : ¬(isDirRes ((n, .file s m d) :: rest) n = true) := by
              rw [hidr]
              simp
            refine ⟨evs2, ?_, ?_⟩
            · rw [if_neg hc1, if_neg hc2]
              rw [pruneLoop_cons (pruneDir f) dp srcSlot (keys rest) rest n
                (.file s m d) hnk hntlR (by simp [nonLink])]
              rw [hrun2]
              rw [pruneSpecCs, if_pos hsh]
              simp [Except.map]
            · intro n2 s2 m2 d2 hlk2 hsh2
              by_cases hn2 : n = n2
              · subst hn2
                rw [hsh] at hsh2
                simp at hsh2
              · rw [lookupCs, if_neg hn2] at hlk2
                exact hdel2 n2 s2 m2 d2 hlk2 hsh2
          · have hshf : srcHasB srcSlot n = false := by
              cases h2 : srcHasB srcSlot n with
              | true => exact absurd h2 hsh
              | false => rfl
            have hcond : (isFileRes ((n, .file s m d) :: rest) n &&
                !srcHasB srcSlot n) = true := by
              rw [hifr, hshf]
              rfl
            have hrem : osRemove ((n, .file s m d) :: rest) n = .ok rest := by
              unfold osRemove
              rw [hlkn]
              simp [removeCs]
            refine ⟨.delete (dp ++ [n]) :: evs2, ?_, ?_⟩
            · rw [if_pos hcond, hrem]
              simp only [Except.bind, bind]
              rw [hrun2]
              rw [pruneSpecCs, if_neg (by rw [hshf]; simp)]
            · intro n2 s2 m2 d2 hlk2 hsh2
              by_cases hn2 : n = n2
              · subst hn2
                exact List.mem_cons.mpr (Or.inl rfl)
              · rw [lookupCs, if_neg hn2] at hlk2
                exact List.mem_cons.mpr
                  (Or.inr (hdel2 n2 s2 m2 d2 hlk2 hsh2))
        | dir sub =>
          have hifr : isFileRes ((n, .dir sub) :: rest) n = false := by
            unfold isFileRes
            rw [hfol, hlkn]
          have hidr : isDirRes ((n, .dir sub) :: rest) n = true := by
            unfold isDirRes
            rw [hfol, hlkn]
          have hlfSub : linkFreeCs sub = true := by
            simpa [linkFree] using hlfE
          have hndSub : nodupCs sub = true := by
            simpa [nodupTree] using hndE
          have hdepSub : depthCs sub < f := by
            have h1 := hdep2 (n, .dir sub) (by simp)
            simp [depthN] at h1
            omega
          obtain ⟨evs1, hrun1, hdel1⟩ := ihf sub (dp ++ [n])
            (srcChildOf srcSlot n) hlfSub hndSub hdepSub
          have hc1 : ¬((isFileRes ((n, .dir sub) :: rest) n &&
              !srcHasB srcSlot n) = true) := by
            rw [hifr]
            simp
          have hset : setCs ((n, .dir sub) :: rest) n
              (.dir (pruneSpecCs (srcChildOf srcSlot n) sub)) =
              (n, .dir (pruneSpecCs (srcChildOf srcSlot n) sub)) :: rest := by
            simp [setCs]
          refine ⟨evs1 ++ evs2, ?_, ?_⟩
          · rw [if_neg hc1, if_pos hidr]
            rw [hfol, hlkn]
            simp only []
            rw [hrun1]
            simp only [Except.bind, bind]
            rw [hset]
            rw [pruneLoop_cons (pruneDir f) dp srcSlot (keys rest) rest n
              (.dir (pruneSpecCs (srcChildOf srcSlot n) sub)) hnk hntlR
              (by simp [nonLink])]
            rw [hrun2]
            rw [pruneSpecCs]
            simp [Except.map]
          · intro n2 s2 m2 d2 hlk2 hsh2
            by_cases hn2 : n = n2
            · subst hn2
              rw [hlkn] at hlk2
              cases hlk2
            · rw [lookupCs, if_neg hn2] at hlk2
              exact List.mem_append.mpr
                (Or.inr (hdel2 n2 s2 m2 d2 hlk2 hsh2))
    obtain ⟨evs, hrun, hdel⟩ := hloop dcs hlf hnd hdep
    refine ⟨evs, ?_, hdel⟩
    rw [pruneDir]
    exact hrun

theorem lookupCs_none_iff {cs : Cs} {n : String} :
    lookupCs cs n = none ↔ n ∉ keys cs := by
  induction cs with
  | nil => simp [lookupCs, keys]
  | cons hd rest ih =>
    obtain ⟨k, x⟩ := hd
    have hkk : keys ((k, x) :: rest) = k :: keys rest := by simp [keys]
    rw [hkk, lookupCs]
    by_cases hk : k = n
    · subst hk
      simp
    · rw [if_neg hk, ih]
      constructor
      · intro h1 h2
        rcases List.mem_cons.mp h2 with h3 | h3
        · exact hk h3.symm
        · exact h1 h3
      · intro h1 h2
        exact h1 (List.mem_cons_of_mem _ h2)

theorem setCs_append {cs : Cs} {n : String} {v : FSNode}
    (h : lookupCs cs n = none) : setCs cs n v = cs ++ [(n, v)] := by
  induction cs with
  | nil => simp [setCs]
  | cons hd rest ih =>
    obtain ⟨k, x⟩ := hd
    by_cases hk : k = n
    · subst hk
      simp [lookupCs] at h
    · rw [lookupCs, if_neg hk] at h
      simp [setCs, hk, ih h]

theorem lookupCs_syncStep_ne {dcs : Cs} {m n : String} {e : FSNode}
    (hne : m ≠ n) : lookupCs (syncStep dcs m e) n = lookupCs dcs n := by
  unfold syncStep
  cases e with
  | link t => rfl
  | file s mt d =>
    cases hd : lookupCs dcs m with
    | none => exact lookupCs_setCs_ne dcs _ (Ne.symm hne)
    | some x =>
      cases x with
      | file s2 m2 d2 =>
        by_cases hq : s == s2 && mt == m2
        · simp [hq]
        · simp [hq]
          exact lookupCs_setCs_ne dcs _ (Ne.symm hne)
      | link t => exact lookupCs_setCs_ne dcs _ (Ne.symm hne)
      | dir sub => exact lookupCs_setCs_ne dcs _ (Ne.symm hne)
  | dir sub =>
    cases hd : lookupCs dcs m with
    | none => exact lookupCs_setCs_ne dcs _ (Ne.symm hne)
    | some x =>
      cases x with
      | file s2 m2 d2 => exact lookupCs_setCs_ne dcs _ (Ne.symm hne)
      | link t => exact lookupCs_setCs_ne dcs _ (Ne.symm hne)
      | dir dsub => exact lookupCs_setCs_ne dcs _ (Ne.symm hne)

theorem lookupCs_syncStepM_ne {dcs : Cs} {m n : String} {e : FSNode}
    (hne : m ≠ n) : lookupCs (syncStepM dcs m e) n = lookupCs dcs n := by
  unfold syncStepM
  cases e with
  | link t => rfl
  | file s mt d => exact lookupCs_setCs_ne dcs _ (Ne.symm hne)
  | dir sub =>
    cases hd : lookupCs dcs m with
    | none => exact lookupCs_setCs_ne dcs _ (Ne.symm hne)
    | some x =>
      cases x with
      | file s2 m2 d2 => exact lookupCs_setCs_ne dcs _ (Ne.symm hne)
      | link t => exact lookupCs_setCs_ne dcs _ (Ne.symm hne)
      | dir dsub => exact lookupCs_setCs_ne dcs _ (Ne.symm hne)

theorem lookupCs_syncCs_not_mem {srcRest dcs : Cs} {n : String}
    (h : n ∉ keys srcRest) :
    lookupCs (syncCs srcRest dcs) n = lookupCs dcs n := by
  induction srcRest generalizing dcs with
  | nil => simp [syncCs]
  | cons hd rest ih =>
    obtain ⟨m, e⟩ := hd
    have hm : m ≠ n := by
      intro hmn
      exact h (by simp [keys, hmn])
    have hrest : n ∉ keys rest := by
      intro h2
      apply h
      have hkk : keys ((m, e) :: rest) = m :: keys rest := by simp [keys]
      rw [hkk]
      exact List.mem_cons_of_mem _ h2
    rw [syncCs]
    rw [ih hrest]
    exact lookupCs_syncStep_ne hm

theorem lookupCs_syncCsM_not_mem {srcRest dcs : Cs} {n : String}
    (h : n ∉ keys srcRest) :
    lookupCs (syncCsM srcRest dcs) n = lookupCs dcs n := by
  induction srcRest generalizing dcs with
  | nil => simp [syncCsM]
  | cons hd rest ih =>
    obtain ⟨m, e⟩ := hd
    have hm : m ≠ n := by
      intro hmn
      exact h (by simp [keys, hmn])
    have hrest : n ∉ keys rest := by
      intro h2
      apply h
      have hkk : keys ((m, e) :: rest) = m :: keys rest := by simp [keys]
      rw [hkk]
      exact List.mem_cons_of_mem _ h2
    rw [syncCsM]
    rw [ih hrest]
    exact lookupCs_syncStepM_ne hm

/-- The entry the mirror specification leaves at one name, as a function
of the source entry there and the previous destination entry. -/
def syncLookupSpecM (e : FSNode) (old : Option FSNode) : Option FSNode :=
  match e, old with
  | .file s m d, _ => some (.file s m d)
  | .dir sub, some (.dir dsub) => some (.dir (syncCsM sub dsub))
  | .dir sub, _ => some (.dir (syncCsM sub []))
  | .link _, old => old

theorem lookupCs_syncCsM_mem {srcRest dcs : Cs} {n : String} {e : FSNode}
    (hnd : nodupCs srcRest = true) (hmem : (n, e) ∈ srcRest) :
    lookupCs (syncCsM srcRest dcs) n = syncLookupSpecM e (lookupCs dcs n) := by
  induction srcRest generalizing dcs with
  | nil => cases hmem
  | cons hd rest ih =>
    obtain ⟨m, e2⟩ := hd
    simp [nodupCs, Bool.and_eq_true] at hnd
    rcases List.mem_cons.mp hmem with h1 | h2
    · injection h1 with ha hb
      subst ha
      subst hb
      rw [syncCsM]
      have hnk : n ∉ keys rest := hnd.1.1
      rw [lookupCs_syncCsM_not_mem hnk]
      unfold syncStepM syncLookupSpecM
      cases e with
      | link t => rfl
      | file s mt d => exact lookupCs_setCs_self dcs n _
      | dir sub =>
        cases hd2 : lookupCs dcs n with
        | none => exact lookupCs_setCs_self dcs n _
        | some x =>
          cases x with
          | file s2 m2 d2 => exact lookupCs_setCs_self dcs n _
          | link t2 => exact lookupCs_setCs_self dcs n _
          | dir dsub => exact lookupCs_setCs_self dcs n _
    · have hmn : m ≠ n := by
        intro hmn
        subst hmn
        have : m ∈ keys rest := by
          simpa [keys] using List.mem_map_of_mem Prod.fst h2
        exact hnd.1.1 this
      rw [syncCsM]
      rw [ih hnd.2 h2]
      rw [lookupCs_syncStepM_ne hmn]

/-- The entry the full and incremental specification leaves at one name. -/
def syncLookupSpec (e : FSNode) (old : Option FSNode) : Option FSNode :=
  match e, old with
  | .file s m d, some (.file s2 m2 d2) =>
    if s == s2 && m == m2 then some (.file s2 m2 d2) else some (.file s m d)
  | .file s m d, _ => some (.file s m d)
  | .dir sub, some (.dir dsub) => some (.dir (syncCs sub dsub))
  | .dir sub, _ => some (.dir (syncCs sub []))
  | .link _, old => old

theorem lookupCs_syncCs_mem {srcRest dcs : Cs} {n : String} {e : FSNode}
    (hnd : nodupCs srcRest = true) (hmem : (n, e) ∈ srcRest) :
    lookupCs (syncCs srcRest dcs) n = syncLookupSpec e (lookupCs dcs n) := by
  induction srcRest generalizing dcs with
  | nil => cases hmem
  | cons hd rest ih =>
    obtain ⟨m, e2⟩ := hd
    simp [nodupCs, Bool.and_eq_true] at hnd
    rcases List.mem_cons.mp hmem with h1 | h2
    · injection h1 with ha hb
      subst ha
      subst hb
      rw [syncCs]
      have hnk : n ∉ keys rest := hnd.1.1
      rw [lookupCs_syncCs_not_mem hnk]
      unfold syncStep syncLookupSpec
      cases e with
      | link t => rfl
      | file s mt d =>
        cases hd2 : lookupCs dcs n with
        | none => exact lookupCs_setCs_self dcs n _
        | some x =>
          cases x with
          | file s2 m2 d2 =>
            by_cases hq : s == s2 && mt == m2
            · simp only [hq, if_true]
              rw [hd2]
            · simp only [hq, if_false]
              exact lookupCs_setCs_self dcs n _
          | link t2 => exact lookupCs_setCs_self dcs n _
          | dir dsub => exact lookupCs_setCs_self dcs n _
      | dir sub =>
        cases hd2 : lookupCs dcs n with
        | none => exact lookupCs_setCs_self dcs n _
        | some x =>
          cases x with
          | file s2 m2 d2 => exact lookupCs_setCs_self dcs n _
          | link t2 => exact lookupCs_setCs_self dcs n _
          | dir dsub => exact lookupCs_setCs_self dcs n _
    · have hmn : m ≠ n := by
        intro hmn
        subst hmn
        have : m ∈ keys rest := by
          simpa [keys] using List.mem_map_of_mem Prod.fst h2
        exact hnd.1.1 this
      rw [syncCs]
      rw [ih hnd.2 h2]
      rw [lookupCs_syncStep_ne hmn]

theorem lookupCs_append_none {xs ys : Cs} {n : String}
    (h : lookupCs xs n = none) : lookupCs (xs ++ ys) n = lookupCs ys n := by
  induction xs with
  | nil => simp
  | cons hd rest ih =>
    obtain ⟨k, x⟩ := hd
    by_cases hk : k = n
    · subst hk
      simp [lookupCs] at h
    · rw [lookupCs, if_neg hk] at h
      simp only [List.cons_append, lookupCs, if_neg hk]
      exact ih h

theorem syncCs_disjoint_append :
    ∀ (srcRest acc : Cs),
      (∀ n, n ∈ keys srcRest → lookupCs acc n = none) →
      nodupCs srcRest = true →
      syncCs srcRest acc = acc ++ syncCs srcRest [] := by
  intro srcRest
  induction srcRest with
  | nil =>
    intro acc hdis hnd
    simp [syncCs]
  | cons hd rest ih =>
    obtain ⟨n, e⟩ := hd
    intro acc hdis hnd
    simp [nodupCs, Bool.and_eq_true] at hnd
    have hkk : keys ((n, e) :: rest) = n :: keys rest := by simp [keys]
    have hn : lookupCs acc n = none := hdis n (by rw [hkk]; simp)
    have hdisR : ∀ m2, m2 ∈ keys rest → lookupCs acc m2 = none := by
      intro m2 hm2
      exact hdis m2 (by rw [hkk]; exact List.mem_cons_of_mem _ hm2)
    have hself : ∀ m2, m2 ∈ keys rest →
        lookupCs ([(n, e)] : Cs) m2 = none := by
      intro m2 hm2
      have hne : n ≠ m2 := by
        intro hh
        subst hh
        exact hnd.1.1 hm2
      simp [lookupCs, hne]
    rw [syncCs, syncCs]
    cases e with
    | link t =>
      have h1 : syncStep acc n (.link t) = acc := by unfold syncStep; rfl
      have h2 : syncStep [] n (.link t) = [] := by unfold syncStep; rfl
      rw [h1, h2]
      exact ih acc hdisR hnd.2
    | file s m d =>
      have h1 : syncStep acc n (.file s m d) = acc ++ [(n, .file s m d)] := by
        unfold syncStep
        rw [hn]
        exact setCs_append hn
      have h2 : syncStep [] n (.file s m d) = [(n, .file s m d)] := by
        unfold syncStep
        simp [lookupCs, setCs]
      rw [h1, h2]
      have hdis2 : ∀ m2, m2 ∈ keys rest →
          lookupCs (acc ++ [(n, .file s m d)]) m2 = none := by
        intro m2 hm2
        rw [lookupCs_append_none (hdisR m2 hm2)]
        exact hself m2 hm2
      rw [ih _ hdis2 hnd.2, ih _ (fun m2 hm2 => hself m2 hm2) hnd.2]
      simp
    | dir sub =>
      have h1 : syncStep acc n (.dir sub) =
          acc ++ [(n, .dir (syncCs sub []))] := by
        unfold syncStep
        rw [hn]
        exact setCs_append hn
      have h2 : syncStep [] n (.dir sub) = [(n, .dir (syncCs sub []))] := by
        unfold syncStep
        simp [lookupCs, setCs]
      rw [h1, h2]
      have hdis2 : ∀ m2, m2 ∈ keys rest →
          lookupCs (acc ++ [(n, .dir (syncCs sub []))]) m2 = none := by
        intro m2 hm2
        rw [lookupCs_append_none (hdisR m2 hm2)]
        have hne : n ≠ m2 := by
          intro hh
          subst hh
          exact hnd.1.1 hm2
        simp [lookupCs, hne]
      have hself2 : ∀ m2, m2 ∈ keys rest →
          lookupCs ([(n, .dir (syncCs sub []))] : Cs) m2 = none := by
        intro m2 hm2
        have hne : n ≠ m2 := by
          intro hh
          subst hh
          exact hnd.1.1 hm2
        simp [lookupCs, hne]
      rw [ih _ hdis2 hnd.2, ih _ hself2 hnd.2]
      simp

theorem syncCs_nil_self :
    ∀ scs : Cs, linkFreeCs scs = true → nodupCs scs = true →
      syncCs scs [] = scs
  | [], _, _ => by simp [syncCs]
  | (n, e) :: rest, hlf, hnd => by
    have hlfE : linkFree e = true := by
      rw [linkFreeCs, Bool.and_eq_true] at hlf
      exact hlf.1
    have hlfR : linkFreeCs rest = true := by
      rw [linkFreeCs, Bool.and_eq_true] at hlf
      exact hlf.2
    have hndP : nodupCs ((n, e) :: rest) = true := hnd
    simp [nodupCs, Bool.and_eq_true] at hnd
    rw [syncCs]
    cases e with
    | link t => simp [linkFree] at hlfE
    | file s m d =>
      have h2 : syncStep [] n (.file s m d) = [(n, .file s m d)] := by
        unfold syncStep
        simp [lookupCs, setCs]
      rw [h2]
      rw [syncCs_disjoint_append rest [(n, .file s m d)] ?_ hnd.2]
      · rw [syncCs_nil_self rest hlfR hnd.2]
        rfl
      · intro m2 hm2
        have hne : n ≠ m2 := by
          intro hh
          subst hh
          exact hnd.1.1 hm2
        simp [lookupCs, hne]
    | dir sub =>
      have hlfSub : linkFreeCs sub = true := by simpa [linkFree] using hlfE
      have hndSub : nodupCs sub = true := by
        have := hnd.1.2
        simpa [nodupTree] using this
      have h2 : syncStep [] n (.dir sub) = [(n, .dir (syncCs sub []))] := by
        unfold syncStep
        simp [lookupCs, setCs]
      rw [h2]
      rw [syncCs_nil_self sub hlfSub hndSub]
      rw [syncCs_disjoint_append rest [(n, .dir sub)] ?_ hnd.2]
      · rw [syncCs_nil_self rest hlfR hnd.2]
        rfl
      · intro m2 hm2
        have hne : n ≠ m2 := by
          intro hh
          subst hh
          exact hnd.1.1 hm2
        simp [lookupCs, hne]
termination_by scs => sizeOf scs

theorem depthCs_setCs_le (dcs : Cs) (n : String) (v : FSNode) :
    depthCs (setCs dcs n v) ≤ max (depthN v) (depthCs dcs) := by
  induction dcs with
  | nil => simp [setCs, depthCs]
  | cons hd rest ih =>
    obtain ⟨k, x⟩ := hd
    by_cases hk : k = n
    · subst hk
      simp only [setCs, if_pos rfl]
      simp [depthCs]
      omega
    · simp only [setCs, if_neg hk]
      simp [depthCs] at ih ⊢
      omega

theorem depthCs_syncCsM_le :
    ∀ (scs dcs : Cs),
      depthCs (syncCsM scs dcs) ≤ max (depthCs scs) (depthCs dcs)
  | [], dcs => by simp [syncCsM]
  | (n, e) :: rest, dcs => by
    rw [syncCsM]
    have h1 := depthCs_syncCsM_le rest (syncStepM dcs n e)
    have h2 : depthCs (syncStepM dcs n e) ≤
        max (depthCs ((n, e) :: rest)) (depthCs dcs) := by
      cases e with
      | link t =>
        have : syncStepM dcs n (.link t) = dcs := by unfold syncStepM; rfl
        rw [this]
        omega
      | file s m d =>
        have h3 := depthCs_setCs_le dcs n (.file s m d)
        have h4 : syncStepM dcs n (.file s m d) =
            setCs dcs n (.file s m d) := by unfold syncStepM; rfl
        rw [h4]
        simp [depthN] at h3
        omega
      | dir sub =>
        have h7 : depthCs sub + 1 ≤ depthCs ((n, .dir sub) :: rest) := by
          have h8 : depthN (.dir sub) ≤ depthCs ((n, .dir sub) :: rest) := by
            simp [depthCs]
          simp [depthN] at h8
          omega
        cases hd : lookupCs dcs n with
        | none =>
          have h4 : syncStepM dcs n (.dir sub) =
              setCs dcs n (.dir (syncCsM sub [])) :=
            syncStepM_dir_set (by rw [hd])
          rw [h4]
          have h3 := depthCs_setCs_le dcs n (.dir (syncCsM sub []))
          have h5 := depthCs_syncCsM_le sub []
          have h6 : depthN (.dir (syncCsM sub [])) =
              depthCs (syncCsM sub []) + 1 := by simp [depthN]
          have h9 : depthCs ([] : Cs) = 0 := by simp [depthCs]
          omega
        | some x =>
          cases x with
          | file s2 m2 d2 =>
            have h4 : syncStepM dcs n (.dir sub) =
                setCs dcs n (.dir (syncCsM sub [])) :=
              syncStepM_dir_set (by rw [hd])
            rw [h4]
            have h3 := depthCs_setCs_le dcs n (.dir (syncCsM sub []))
            have h5 := depthCs_syncCsM_le sub []
            have h6 : depthN (.dir (syncCsM sub [])) =
                depthCs (syncCsM sub []) + 1 := by simp [depthN]
            have h9 : depthCs ([] : Cs) = 0 := by simp [depthCs]
            omega
          | link t2 =>
            have h4 : syncStepM dcs n (.dir sub) =
                setCs dcs n (.dir (syncCsM sub [])) :=
              syncStepM_dir_set (by rw [hd])
            rw [h4]
            have h3 := depthCs_setCs_le dcs n (.dir (syncCsM sub []))
            have h5 := depthCs_syncCsM_le sub []
            have h6 : depthN (.dir (syncCsM sub [])) =
                depthCs (syncCsM sub []) + 1 := by simp [depthN]
            have h9 : depthCs ([] : Cs) = 0 := by simp [depthCs]
            omega
          | dir dsub =>
            have h4 : syncStepM dcs n (.dir sub) =
                setCs dcs n (.dir (syncCsM sub dsub)) :=
              syncStepM_dir_set (by rw [hd])
            rw [h4]
            have h3 := depthCs_setCs_le dcs n (.dir (syncCsM sub dsub))
            have h5 := depthCs_syncCsM_le sub dsub
            have h6 : depthN (.dir (syncCsM sub dsub)) =
                depthCs (syncCsM sub dsub) + 1 := by simp [depthN]
            have h8 : depthN (.dir dsub) ≤ depthCs dcs :=
              depthN_le_of_lookup hd
            simp [depthN] at h8
            omega
    have h9 : depthCs rest ≤ depthCs ((n, e) :: rest) := by
      simp [depthCs]
    omega
termination_by scs _ => sizeOf scs

theorem syncCsM_props :
    ∀ (scs dcs : Cs),
      linkFreeCs scs = true → nodupCs scs = true →
      linkFreeCs dcs = true → nodupCs dcs = true →
      linkFreeCs (syncCsM scs dcs) = true ∧
        nodupCs (syncCsM scs dcs) = true
  | [], dcs => by
    intro _ _ h3 h4
    simpa [syncCsM] using ⟨h3, h4⟩
  | (n, e) :: rest, dcs => by
    intro hlf hnd hlfD hndD
    have hlfE : linkFree e = true := by
      rw [linkFreeCs, Bool.and_eq_true] at hlf
      exact hlf.1
    have hlfR : linkFreeCs rest = true := by
      rw [linkFreeCs, Bool.and_eq_true] at hlf
      exact hlf.2
    simp [nodupCs, Bool.and_eq_true] at hnd
    have hstep : linkFreeCs (syncStepM dcs n e) = true ∧
        nodupCs (syncStepM dcs n e) = true := by
      cases e with
      | link t => simp [linkFree] at hlfE
      | file s m d =>
        have h4 : syncStepM dcs n (.file s m d) =
            setCs dcs n (.file s m d) := by unfold syncStepM; rfl
        rw [h4]
        exact ⟨linkFreeCs_setCs hlfD (by simp [linkFree]),
          nodupCs_setCs hndD (by simp [nodupTree])⟩
      | dir sub =>
        have hlfSub : linkFreeCs sub = true := by simpa [linkFree] using hlfE
        have hndSub : nodupCs sub = true := by
          have := hnd.1.2
          simpa [nodupTree] using this
        cases hd : lookupCs dcs n with
        | none =>
          have h4 : syncStepM dcs n (.dir sub) =
              setCs dcs n (.dir (syncCsM sub [])) :=
            syncStepM_dir_set (by rw [hd])
          rw [h4]
          obtain ⟨q1, q2⟩ := syncCsM_props sub [] hlfSub hndSub rfl rfl
          exact ⟨linkFreeCs_setCs hlfD (by simp [linkFree, q1]),
            nodupCs_setCs hndD (by simp [nodupTree, q2])⟩
        | some x =>
          cases x with
          | file s2 m2 d2 =>
            have h4 : syncStepM dcs n (.dir sub) =
                setCs dcs n (.dir (syncCsM sub [])) :=
              syncStepM_dir_set (by rw [hd])
            rw [h4]
            obtain ⟨q1, q2⟩ := syncCsM_props sub [] hlfSub hndSub rfl rfl
            exact ⟨linkFreeCs_setCs hlfD (by simp [linkFree, q1]),
              nodupCs_setCs hndD (by simp [nodupTree, q2])⟩
          | link t2 =>
            have h4 : syncStepM dcs n (.dir sub) =
                setCs dcs n (.dir (syncCsM sub [])) :=
              syncStepM_dir_set (by rw [hd])
            rw [h4]
            obtain ⟨q1, q2⟩ := syncCsM_props sub [] hlfSub hndSub rfl rfl
            exact ⟨linkFreeCs_setCs hlfD (by simp [linkFree, q1]),
              nodupCs_setCs hndD (by simp [nodupTree, q2])⟩
          | dir dsub =>
            have hlfDsub : linkFreeCs dsub = true := by
              have := linkFreeCs_lookup hlfD hd
              simpa [linkFree] using this
            have hndDsub : nodupCs dsub = true := by
              have := nodupTree_of_lookup hndD hd
              simpa [nodupTree] using this
            have h4 : syncStepM dcs n (.dir sub) =
                setCs dcs n (.dir (syncCsM sub dsub)) :=
              syncStepM_dir_set (by rw [hd])
            rw [h4]
            obtain ⟨q1, q2⟩ := syncCsM_props sub dsub hlfSub hndSub hlfDsub
              hndDsub
            exact ⟨linkFreeCs_setCs hlfD (by simp [linkFree, q1]),
              nodupCs_setCs hndD (by simp [nodupTree, q2])⟩
    rw [syncCsM]
    exact syncCsM_props rest (syncStepM dcs n e) hlfR hnd.2 hstep.1 hstep.2
termination_by scs _ => sizeOf scs

theorem keys_pruneSpecCs_subset {srcSlot : Option FSNode} {dcs : Cs}
    {m : String} (h : m ∈ keys (pruneSpecCs srcSlot dcs)) : m ∈ keys dcs := by
  induction dcs with
  | nil => simpa [pruneSpecCs, keys] using h
  | cons hd rest ih =>
    obtain ⟨k, x⟩ := hd
    have hkk : keys ((k, x) :: rest) = k :: keys rest := by simp [keys]
    rw [hkk]
    cases x with
    | file s mt d =>
      rw [pruneSpecCs] at h
      by_cases hsh : srcHasB srcSlot k = true
      · rw [if_pos hsh] at h
        have hkk2 : keys ((k, FSNode.file s mt d) ::
            pruneSpecCs srcSlot rest) = k :: keys (pruneSpecCs srcSlot rest) := by
          simp [keys]
        rw [hkk2] at h
        rcases List.mem_cons.mp h with h1 | h2
        · exact List.mem_cons.mpr (Or.inl h1)
        · exact List.mem_cons.mpr (Or.inr (ih h2))
      · rw [if_neg hsh] at h
        exact List.mem_cons.mpr (Or.inr (ih h))
    | dir sub =>
      rw [pruneSpecCs] at h
      have hkk2 : keys ((k, FSNode.dir (pruneSpecCs (srcChildOf srcSlot k) sub))
          :: pruneSpecCs srcSlot rest) =
          k :: keys (pruneSpecCs srcSlot rest) := by
        simp [keys]
      rw [hkk2] at h
      rcases List.mem_cons.mp h with h1 | h2
      · exact List.mem_cons.mpr (Or.inl h1)
      · exact List.mem_cons.mpr (Or.inr (ih h2))
    | link t =>
      rw [pruneSpecCs] at h
      have hkk2 : keys ((k, FSNode.link t) :: pruneSpecCs srcSlot rest) =
          k :: keys (pruneSpecCs srcSlot rest) := by
        simp [keys]
      rw [hkk2] at h
      rcases List.mem_cons.mp h with h1 | h2
      · exact List.mem_cons.mpr (Or.inl h1)
      · exact List.mem_cons.mpr (Or.inr (ih h2))

/-- The entry the pruning specification leaves at one destination name. -/
def pruneLookupSpec (srcSlot : Option FSNode) (n : String) :
    Option FSNode → Option FSNode
  | some (.file s m d) =>
    if srcHasB srcSlot n then some (.file s m d) else none
  | some (.dir sub) => some (.dir (pruneSpecCs (srcChildOf srcSlot n) sub))
  | some (.link t) => some (.link t)
  | none => none

theorem lookupCs_pruneSpecCs {srcSlot : Option FSNode} {dcs : Cs} {n : String}
    (hnd : nodupCs dcs = true) :
    lookupCs (pruneSpecCs srcSlot dcs) n =
      pruneLookupSpec srcSlot n (lookupCs dcs n) := by
  induction dcs with
  | nil => simp [pruneSpecCs, lookupCs, pruneLookupSpec]
  | cons hd rest ih =>
    obtain ⟨k, x⟩ := hd
    simp [nodupCs, Bool.and_eq_true] at hnd
    have ihr := ih hnd.2
    by_cases hk : k = n
    · subst hk
      have hnone : lookupCs (pruneSpecCs srcSlot rest) k = none := by
        rw [lookupCs_none_iff]
        intro hmem
        exact hnd.1.1 (keys_pruneSpecCs_subset hmem)
      rw [lookupCs, if_pos rfl]
      cases x with
      | file s mt d =>
        rw [pruneSpecCs]
        by_cases hsh : srcHasB srcSlot k = true
        · rw [if_pos hsh, lookupCs, if_pos rfl]
          unfold pruneLookupSpec
          rw [hsh]
          simp
        · have hshf : srcHasB srcSlot k = false := by
            cases h2 : srcHasB srcSlot k with
            | true => exact absurd h2 hsh
            | false => rfl
          rw [if_neg hsh, hnone]
          unfold pruneLookupSpec
          rw [hshf]
          simp
      | dir sub =>
        rw [pruneSpecCs, lookupCs, if_pos rfl]
        rfl
      | link t =>
        rw [pruneSpecCs, lookupCs, if_pos rfl]
        rfl
    · rw [lookupCs, if_neg hk]
      cases x with
      | file s mt d =>
        rw [pruneSpecCs]
        by_cases hsh : srcHasB srcSlot k = true
        · rw [if_pos hsh, lookupCs, if_neg hk]
          exact ihr
        · rw [if_neg hsh]
          exact ihr
      | dir sub =>
        rw [pruneSpecCs, lookupCs, if_neg hk]
        exact ihr
      | link t =>
        rw [pruneSpecCs, lookupCs, if_neg hk]
        exact ihr

theorem sizeOf_of_lookupCs {dcs : Cs} {n : String} {e : FSNode}
    (h : lookupCs dcs n = some e) : sizeOf e < sizeOf dcs := by
  induction dcs with
  | nil => simp [lookupCs] at h
  | cons hd rest ih =>
    obtain ⟨k, x⟩ := hd
    rw [lookupCs] at h
    by_cases hk : k = n
    · rw [if_pos hk] at h
      cases h
      simp only [List.cons.sizeOf_spec, Prod.mk.sizeOf_spec]
      omega
    · rw [if_neg hk] at h
      have := ih h
      simp only [List.cons.sizeOf_spec, Prod.mk.sizeOf_spec]
      omega

theorem fileAt_pruneSpec_none :
    ∀ (dcs : Cs), nodupCs dcs = true → ∀ p : FPath,
      fileAtN (.dir (pruneSpecCs none dcs)) p = false
  | dcs, hnd, [] => by simp [fileAtN, lookupPathN]
  | dcs, hnd, n :: q => by
    unfold fileAtN lookupPathN
    rw [lookupCs_pruneSpecCs hnd]
    cases hd : lookupCs dcs n with
    | none => simp [pruneLookupSpec]
    | some e =>
      cases e with
      | file s m d =>
        unfold pruneLookupSpec
        have : srcHasB none n = false := rfl
        rw [this]
        simp
      | link t =>
        unfold pruneLookupSpec
        cases q <;> simp [lookupPathN]
      | dir sub =>
        unfold pruneLookupSpec
        simp only []
        have hndSub : nodupCs sub = true := by
          have := nodupTree_of_lookup hnd hd
          simpa [nodupTree] using this
        have hsc : srcChildOf none n = none := rfl
        rw [hsc]
        have hsz : sizeOf sub < sizeOf dcs := by
          have h1 := sizeOf_of_lookupCs hd
          have h2 : sizeOf (FSNode.dir sub) = 1 + sizeOf sub := by
            simp only [FSNode.dir.sizeOf_spec]
          omega
        have := fileAt_pruneSpec_none sub hndSub q
        unfold fileAtN at this
        exact this
termination_by dcs _ p => sizeOf dcs
decreasing_by simp_wf; omega

theorem fileAtN_dir_cons (cs : Cs) (n : String) (q : FPath) :
    fileAtN (.dir cs) (n :: q) =
      (match lookupCs cs n with
       | some e => fileAtN e q
       | none => false) := by
  have h0 : lookupPathN (.dir cs) (n :: q) =
      (match lookupCs cs n with
       | some e => lookupPathN e q
       | none => none) := rfl
  unfold fileAtN
  rw [h0]
  cases lookupCs cs n with
  | none => rfl
  | some e => rfl

theorem lookupPath_syncCs_frame :
    ∀ (scs dcs : Cs), linkFreeCs scs = true → nodupCs scs = true →
      compatCs scs dcs = true →
      ∀ p : FPath, lookupPathN (.dir scs) p = none →
        lookupPathN (.dir (syncCs scs dcs)) p = lookupPathN (.dir dcs) p
  | scs, dcs, hlf, hnd, hc, [], hnone => by
    simp [lookupPathN] at hnone
  | scs, dcs, hlf, hnd, hc, n :: q, hnone => by
    cases hs : lookupCs scs n with
    | none =>
      have h1 : lookupCs (syncCs scs dcs) n = lookupCs dcs n :=
        lookupCs_syncCs_not_mem (lookupCs_none_iff.mp hs)
      unfold lookupPathN
      rw [h1]
    | some e =>
      have hq : lookupPathN e q = none := by
        unfold lookupPathN at hnone
        rw [hs] at hnone
        exact hnone
      have hsync : lookupCs (syncCs scs dcs) n =
          syncLookupSpec e (lookupCs dcs n) :=
        lookupCs_syncCs_mem hnd (mem_of_lookupCs hs)
      have hlfE : linkFree e = true := linkFreeCs_lookup hlf hs
      unfold lookupPathN
      rw [hsync]
      cases e with
      | link t => simp [linkFree] at hlfE
      | file s m d =>
        cases q with
        | nil => simp [lookupPathN] at hq
        | cons b q2 =>
          cases hd2 : lookupCs dcs n with
          | none => rfl
          | some d2 =>
            have hk := compatCs_lookup hc hd2
            rw [hs] at hk
            cases d2 with
            | file s2 m2 dd2 =>
              by_cases hcond : (s == s2 && m == m2) = true
              · simp [syncLookupSpec, hcond, lookupPathN]
              · simp [syncLookupSpec, hcond, lookupPathN]
            | link t2 => exact hk.elim
            | dir dsub2 => exact hk.elim
      | dir sub =>
        cases q with
        | nil => simp [lookupPathN] at hq
        | cons b q2 =>
          have hlfSub : linkFreeCs sub = true := by
            simpa [linkFree] using hlfE
          have hndSub : nodupCs sub = true := by
            have := nodupTree_of_lookup hnd hs
            simpa [nodupTree] using this
          have hsz : sizeOf sub < sizeOf scs := by
            have h1 := sizeOf_of_lookupCs hs
            have h2 : sizeOf (FSNode.dir sub) = 1 + sizeOf sub := by
              simp only [FSNode.dir.sizeOf_spec]
            omega
          cases hd2 : lookupCs dcs n with
          | none =>
            have h1 : syncLookupSpec (.dir sub) none =
                some (.dir (syncCs sub [])) := rfl
            rw [h1]
            rw [syncCs_nil_self sub hlfSub hndSub]
            exact hq
          | some d2 =>
            have hk := compatCs_lookup hc hd2
            rw [hs] at hk
            cases d2 with
            | file s2 m2 dd2 => exact hk.elim
            | link t2 => exact hk.elim
            | dir dsub =>
              have h1 : syncLookupSpec (.dir sub) (some (.dir dsub)) =
                  some (.dir (syncCs sub dsub)) := rfl
              rw [h1]
              exact lookupPath_syncCs_frame sub dsub hlfSub hndSub hk
                (b :: q2) hq
termination_by scs _ _ _ _ p _ => sizeOf scs
decreasing_by simp_wf; omega

theorem fileAt_mirror_converges :
    ∀ (scs dcs : Cs), linkFreeCs scs = true → nodupCs scs = true →
      linkFreeCs dcs = true → nodupCs dcs = true → compatCs scs dcs = true →
      ∀ p : FPath,
        fileAtN (.dir (pruneSpecCs (some (.dir scs)) (syncCsM scs dcs))) p =
          fileAtN (.dir scs) p
  | scs, dcs, hlfS, hndS, hlfD, hndD, hc, [] => by
    simp [fileAtN, lookupPathN]
  | scs, dcs, hlfS, hndS, hlfD, hndD, hc, n :: q => by
    have hndSync : nodupCs (syncCsM scs dcs) = true :=
      (syncCsM_props scs dcs hlfS hndS hlfD hndD).2
    rw [fileAtN_dir_cons, fileAtN_dir_cons]
    rw [lookupCs_pruneSpecCs hndSync]
    cases hs : lookupCs scs n with
    | none =>
      have hsync : lookupCs (syncCsM scs dcs) n = lookupCs dcs n :=
        lookupCs_syncCsM_not_mem (lookupCs_none_iff.mp hs)
      rw [hsync]
      cases hd2 : lookupCs dcs n with
      | none => rfl
      | some d2 =>
        cases d2 with
        | file s2 m2 dd2 =>
          have hsb : srcHasB (some (.dir scs)) n = false := by
            show existsRes scs n = false
            exact existsRes_of_lookup_none hs
          unfold pruneLookupSpec
          rw [hsb]
          simp
        | link t =>
          have := linkFreeCs_lookup hlfD hd2
          simp [linkFree] at this
        | dir dsub =>
          have hsc : srcChildOf (some (.dir scs)) n = none := by
            show (match follow scs n with
                  | some (_, e) => e
                  | none => none) = none
            rw [follow_of_linkFree hlfS, hs]
          have hndDsub : nodupCs dsub = true := by
            have := nodupTree_of_lookup hndD hd2
            simpa [nodupTree] using this
          unfold pruneLookupSpec
          rw [hsc]
          show fileAtN (FSNode.dir (pruneSpecCs none dsub)) q = false
          exact fileAt_pruneSpec_none dsub hndDsub q
    | some e =>
      have hsync : lookupCs (syncCsM scs dcs) n =
          syncLookupSpecM e (lookupCs dcs n) :=
        lookupCs_syncCsM_mem hndS (mem_of_lookupCs hs)
      rw [hsync]
      have hlfE : linkFree e = true := linkFreeCs_lookup hlfS hs
      cases e with
      | link t => simp [linkFree] at hlfE
      | file s m d =>
        have h1 : syncLookupSpecM (.file s m d) (lookupCs dcs n) =
            some (.file s m d) := by
          cases lookupCs dcs n with
          | none => rfl
          | some x => cases x <;> rfl
        rw [h1]
        have hsb : srcHasB (some (.dir scs)) n = true := by
          show existsRes scs n = true
          rw [existsRes_of_linkFree hlfS, hs]
          rfl
        unfold pruneLookupSpec
        rw [hsb]
        simp
      | dir sub =>
        have hlfSub : linkFreeCs sub = true := by
          simpa [linkFree] using hlfE
        have hndSub : nodupCs sub = true := by
          have := nodupTree_of_lookup hndS hs
          simpa [nodupTree] using this
        have hsc : srcChildOf (some (.dir scs)) n = some (.dir sub) := by
          show (match follow scs n with
                | some (_, e) => e
                | none => none) = some (.dir sub)
          rw [follow_of_linkFree hlfS, hs]
        have hsz : sizeOf sub < sizeOf scs := by
          have h1 := sizeOf_of_lookupCs hs
          have h2 : sizeOf (FSNode.dir sub) = 1 + sizeOf sub := by
            simp only [FSNode.dir.sizeOf_spec]
          omega
        cases hd2 : lookupCs dcs n with
        | none =>
          have h1 : syncLookupSpecM (.dir sub) none =
              some (.dir (syncCsM sub [])) := rfl
          rw [h1]
          unfold pruneLookupSpec
          rw [hsc]
          show fileAtN
              (FSNode.dir (pruneSpecCs (some (.dir sub)) (syncCsM sub []))) q =
            fileAtN (FSNode.dir sub) q
          exact fileAt_mirror_converges sub [] hlfSub hndSub rfl rfl
            (compatCs_nil sub) q
        | some d2 =>
          have hk := compatCs_lookup hc hd2
          rw [hs] at hk
          cases d2 with
          | file s2 m2 dd2 => exact hk.elim
          | link t2 => exact hk.elim
          | dir dsub =>
            have hlfDsub : linkFreeCs dsub = true := by
              have := linkFreeCs_lookup hlfD hd2
              simpa [linkFree] using this
            have hndDsub : nodupCs dsub = true := by
              have := nodupTree_of_lookup hndD hd2
              simpa [nodupTree] using this
            have h1 : syncLookupSpecM (.dir sub) (some (.dir dsub)) =
                some (.dir (syncCsM sub dsub)) := rfl
            rw [h1]
            unfold pruneLookupSpec
            rw [hsc]
            show fileAtN
                (FSNode.dir
                  (pruneSpecCs (some (.dir sub)) (syncCsM sub dsub))) q =
              fileAtN (FSNode.dir sub) q
            exact fileAt_mirror_converges sub dsub hlfSub hndSub
              hlfDsub hndDsub hk q
termination_by scs _ _ _ _ _ _ p => sizeOf scs
decreasing_by all_goals simp_wf; omega

/-- C6.  During the mirror pruning pass over a link-free destination
directory: a destination file whose source counterpart path does not
exist is deleted (its name no longer resolves afterwards) and the
deletion is logged as a delete event for its path; a destination file
whose counterpart exists is kept unchanged; and a destination directory
is never deleted — its entry always survives as a directory, recursed
into unconditionally and pruned against its possibly nonexistent source
counterpart slot, so an emptied destination directory remains after the
pass. -/
theorem pruner_deletes_files_never_directories (fuel : Nat) (dcs : Cs)
    (dp : FPath) (srcSlot : Option FSNode)
    (hlf : linkFreeCs dcs = true) (hnd : nodupCs dcs = true)
    (hdep : depthCs dcs < fuel) :
    ∃ evs, pruneDir fuel dp srcSlot dcs =
        .ok (pruneSpecCs srcSlot dcs, evs) ∧
      (∀ n s m d, lookupCs dcs n = some (.file s m d) →
        srcHasB srcSlot n = false →
        lookupCs (pruneSpecCs srcSlot dcs) n = none ∧
          Ev.delete (dp ++ [n]) ∈ evs) ∧
      (∀ n s m d, lookupCs dcs n = some (.file s m d) →
        srcHasB srcSlot n = true →
        lookupCs (pruneSpecCs srcSlot dcs) n = some (.file s m d)) ∧
      (∀ n sub, lookupCs dcs n = some (.dir sub) →
        lookupCs (pruneSpecCs srcSlot dcs) n =
          some (.dir (pruneSpecCs (srcChildOf srcSlot n) sub))) := by
  obtain ⟨evs, hrun, hdel⟩ := pruneDir_spec fuel dcs dp srcSlot hlf hnd hdep
  refine ⟨evs, hrun, ?_, ?_, ?_⟩
  · intro n s m d hlk hsb
    constructor
    · rw [lookupCs_pruneSpecCs hnd, hlk]
      simp [pruneLookupSpec, hsb]
    · exact hdel n s m d hlk hsb
  · intro n s m d hlk hsb
    rw [lookupCs_pruneSpecCs hnd, hlk]
    simp [pruneLookupSpec, hsb]
  · intro n sub hlk
    rw [lookupCs_pruneSpecCs hnd, hlk]
    rfl

theorem pruner_deletes_files_never_directories_witness :
    linkFreeCs [("a", FSNode.file 1 1 0), ("d", FSNode.dir [])] = true ∧
    nodupCs [("a", FSNode.file 1 1 0), ("d", FSNode.dir [])] = true ∧
    depthCs [("a", FSNode.file 1 1 0), ("d", FSNode.dir [])] < 2 ∧
    (∃ evs, pruneDir 2 [] none [("a", FSNode.file 1 1 0), ("d", FSNode.dir [])] =
        .ok (pruneSpecCs none [("a", FSNode.file 1 1 0), ("d", FSNode.dir [])],
          evs) ∧
      (∀ n s m d,
        lookupCs [("a", FSNode.file 1 1 0), ("d", FSNode.dir [])] n =
          some (.file s m d) →
        srcHasB none n = false →
        lookupCs
            (pruneSpecCs none [("a", FSNode.file 1 1 0), ("d", FSNode.dir [])])
            n = none ∧
          Ev.delete ([] ++ [n]) ∈ evs) ∧
      (∀ n s m d,
        lookupCs [("a", FSNode.file 1 1 0), ("d", FSNode.dir [])] n =
          some (.file s m d) →
        srcHasB none n = true →
        lookupCs
            (pruneSpecCs none [("a", FSNode.file 1 1 0), ("d", FSNode.dir [])])
            n = some (.file s m d)) ∧
      (∀ n sub,
        lookupCs [("a", FSNode.file 1 1 0), ("d", FSNode.dir [])] n =
          some (.dir sub) →
        lookupCs
            (pruneSpecCs none [("a", FSNode.file 1 1 0), ("d", FSNode.dir [])])
            n = some (.dir (pruneSpecCs (srcChildOf none n) sub)))) :=
  ⟨by decide, by decide, by decide,
   pruner_deletes_files_never_directories 2
     [("a", FSNode.file 1 1 0), ("d", FSNode.dir [])] [] none
     (by decide) (by decide) (by decide)⟩

/-- C4 amended.  For the full and incremental strategies the idempotence
claim holds: a first run over a link-free, duplicate-free source tree
into a fresh destination reproduces the source tree, and the second run
over the unchanged source emits no copy-file and no copy-link action and
classifies every file entry skip-unchanged.  (For the mirror strategy the
claim fails: its per-entry routine copies every regular file
unconditionally, see the counterexample.) -/
theorem full_incremental_second_run_skips (fuel : Nat) (scs : Cs)
    (hlf : linkFreeCs scs = true) (hnd : nodupCs scs = true)
    (hdep : depthCs scs < fuel) :
    (∃ evs1, performFull fuel scs none = .ok (.dir scs, evs1)) ∧
    (∃ evs2, performFull fuel scs (some (.dir scs)) = .ok (.dir scs, evs2) ∧
      (∀ a b, Ev.copyFile a b ∉ evs2) ∧
      (∀ a b, Ev.copyLink a b ∉ evs2) ∧
      (∀ q, fileAtN (.dir scs) q = true → Ev.skipUnchanged q ∈ evs2)) ∧
    (∃ evs3, performIncr fuel scs none = .ok (.dir scs, evs3)) ∧
    (∃ evs4, performIncr fuel scs (some (.dir scs)) = .ok (.dir scs, evs4) ∧
      (∀ a b, Ev.copyFile a b ∉ evs4) ∧
      (∀ a b, Ev.copyLink a b ∉ evs4) ∧
      (∀ q, fileAtN (.dir scs) q = true → Ev.skipUnchanged q ∈ evs4)) := by
  have hcfB : ∀ sp dp sibs n dst, (∀ t, lookupCs sibs n ≠ some (.link t)) →
      copyFileB sp dp sibs n dst = copyFileB sp dp sibs n dst :=
    fun _ _ _ _ _ _ => rfl
  have hcfI : ∀ sp dp sibs n dst, (∀ t, lookupCs sibs n ≠ some (.link t)) →
      copyFileI sp dp sibs n dst = copyFileB sp dp sibs n dst :=
    fun sp dp sibs n dst h => copyFileI_eq_copyFileB_of_nonlink sp dp dst h
  refine ⟨?_, ?_, ?_, ?_⟩
  · obtain ⟨evs, hrun, _, _, _⟩ :=
      copyDir_sync copyFileB hcfB fuel scs [] [] [] (some (.dir []))
        rfl hlf hnd rfl rfl (compatCs_nil scs) hdep
    rw [syncCs_nil_self scs hlf hnd] at hrun
    refine ⟨evs, ?_⟩
    show (copyDir copyFileB fuel [] [] scs (some (FSNode.dir []))).map
        (fun p => (p.1, ([] : List Ev) ++ p.2)) = .ok (.dir scs, evs)
    rw [hrun]
    rfl
  · obtain ⟨evs, hrun, hnoF, hnoL, hskip⟩ :=
      copyDir_self_skips copyFileB hcfB fuel scs [] []
        (some (.dir scs)) rfl hlf hnd hdep
    refine ⟨evs, ?_, hnoF, hnoL, ?_⟩
    · show (copyDir copyFileB fuel [] [] scs (some (FSNode.dir scs))).map
          (fun p => (p.1, ([] : List Ev) ++ p.2)) = .ok (.dir scs, evs)
      rw [hrun]
      rfl
    · intro q hq
      simpa using hskip q hq
  · obtain ⟨evs, hrun, _, _, _⟩ :=
      copyDir_sync copyFileI hcfI fuel scs [] [] [] none
        rfl hlf hnd rfl rfl (compatCs_nil scs) hdep
    rw [syncCs_nil_self scs hlf hnd] at hrun
    exact ⟨evs, hrun⟩
  · obtain ⟨evs, hrun, hnoF, hnoL, hskip⟩ :=
      copyDir_self_skips copyFileI hcfI fuel scs [] []
        (some (.dir scs)) rfl hlf hnd hdep
    refine ⟨evs, hrun, hnoF, hnoL, ?_⟩
    intro q hq
    simpa using hskip q hq

theorem full_incremental_second_run_skips_witness :
    linkFreeCs [("a", FSNode.file 1 1 0)] = true ∧
    nodupCs [("a", FSNode.file 1 1 0)] = true ∧
    depthCs [("a", FSNode.file 1 1 0)] < 1 ∧
    ((∃ evs1, performFull 1 [("a", FSNode.file 1 1 0)] none =
        .ok (.dir [("a", FSNode.file 1 1 0)], evs1)) ∧
    (∃ evs2, performFull 1 [("a", FSNode.file 1 1 0)]
          (some (.dir [("a", FSNode.file 1 1 0)])) =
        .ok (.dir [("a", FSNode.file 1 1 0)], evs2) ∧
      (∀ a b, Ev.copyFile a b ∉ evs2) ∧
      (∀ a b, Ev.copyLink a b ∉ evs2) ∧
      (∀ q, fileAtN (.dir [("a", FSNode.file 1 1 0)]) q = true →
        Ev.skipUnchanged q ∈ evs2)) ∧
    (∃ evs3, performIncr 1 [("a", FSNode.file 1 1 0)] none =
        .ok (.dir [("a", FSNode.file 1 1 0)], evs3)) ∧
    (∃ evs4, performIncr 1 [("a", FSNode.file 1 1 0)]
          (some (.dir [("a", FSNode.file 1 1 0)])) =
        .ok (.dir [("a", FSNode.file 1 1 0)], evs4) ∧
      (∀ a b, Ev.copyFile a b ∉ evs4) ∧
      (∀ a b, Ev.copyLink a b ∉ evs4) ∧
      (∀ q, fileAtN (.dir [("a", FSNode.file 1 1 0)]) q = true →
        Ev.skipUnchanged q ∈ evs4))) :=
  ⟨by decide, by decide, by decide,
   full_incremental_second_run_skips 1 [("a", FSNode.file 1 1 0)]
     (by decide) (by decide) (by decide)⟩

/-- C5 amended.  Over a link-free, duplicate-free, kind-compatible
destination, a full or incremental run completes and leaves every
destination path that has no source counterpart exactly as it was: the
run's result is the synchronized contents, and at every path where the
source tree resolves to nothing the synchronized tree holds the same
entry as the original destination (the counterexample shows the
compatibility proviso is needed: a source file over a destination
directory of the same name overwrites an inner counterpartless entry
through shutil.copy2 into that directory). -/
theorem full_incremental_preserve_counterpartless (fuel : Nat)
    (scs dcs : Cs)
    (hlfS : linkFreeCs scs = true) (hndS : nodupCs scs = true)
    (hlfD : linkFreeCs dcs = true) (hndD : nodupCs dcs = true)
    (hc : compatCs scs dcs = true) (hdep : depthCs scs < fuel)
    (p : FPath) (hnone : lookupPathN (.dir scs) p = none) :
    (∃ evs, performFull fuel scs (some (.dir dcs)) =
        .ok (.dir (syncCs scs dcs), evs)) ∧
    (∃ evs, performIncr fuel scs (some (.dir dcs)) =
        .ok (.dir (syncCs scs dcs), evs)) ∧
    lookupPathN (.dir (syncCs scs dcs)) p = lookupPathN (.dir dcs) p := by
  have hcfB : ∀ sp dp sibs n dst, (∀ t, lookupCs sibs n ≠ some (.link t)) →
      copyFileB sp dp sibs n dst = copyFileB sp dp sibs n dst :=
    fun _ _ _ _ _ _ => rfl
  have hcfI : ∀ sp dp sibs n dst, (∀ t, lookupCs sibs n ≠ some (.link t)) →
      copyFileI sp dp sibs n dst = copyFileB sp dp sibs n dst :=
    fun sp dp sibs n dst h => copyFileI_eq_copyFileB_of_nonlink sp dp dst h
  refine ⟨?_, ?_, lookupPath_syncCs_frame scs dcs hlfS hndS hc p hnone⟩
  · obtain ⟨evs, hrun, _, _, _⟩ :=
      copyDir_sync copyFileB hcfB fuel scs dcs [] [] (some (.dir dcs))
        rfl hlfS hndS hlfD hndD hc hdep
    refine ⟨evs, ?_⟩
    show (copyDir copyFileB fuel [] [] scs (some (FSNode.dir dcs))).map
        (fun p => (p.1, ([] : List Ev) ++ p.2)) = .ok (.dir (syncCs scs dcs), evs)
    rw [hrun]
    rfl
  · obtain ⟨evs, hrun, _, _, _⟩ :=
      copyDir_sync copyFileI hcfI fuel scs dcs [] [] (some (.dir dcs))
        rfl hlfS hndS hlfD hndD hc hdep
    exact ⟨evs, hrun⟩

theorem full_incremental_preserve_counterpartless_witness :
    linkFreeCs [("a", FSNode.file 1 1 0)] = true ∧
    nodupCs [("a", FSNode.file 1 1 0)] = true ∧
    linkFreeCs [("b", FSNode.file 2 2 0)] = true ∧
    nodupCs [("b", FSNode.file 2 2 0)] = true ∧
    compatCs [("a", FSNode.file 1 1 0)] [("b", FSNode.file 2 2 0)] = true ∧
    depthCs [("a", FSNode.file 1 1 0)] < 1 ∧
    lookupPathN (.dir [("a", FSNode.file 1 1 0)]) ["b"] = none ∧
    ((∃ evs, performFull 1 [("a", FSNode.file 1 1 0)]
          (some (.dir [("b", FSNode.file 2 2 0)])) =
        .ok (.dir (syncCs [("a", FSNode.file 1 1 0)]
          [("b", FSNode.file 2 2 0)]), evs)) ∧
    (∃ evs, performIncr 1 [("a", FSNode.file 1 1 0)]
          (some (.dir [("b", FSNode.file 2 2 0)])) =
        .ok (.dir (syncCs [("a", FSNode.file 1 1 0)]
          [("b", FSNode.file 2 2 0)]), evs)) ∧
    lookupPathN
        (.dir (syncCs [("a", FSNode.file 1 1 0)] [("b", FSNode.file 2 2 0)]))
        ["b"] =
      lookupPathN (.dir [("b", FSNode.file 2 2 0)]) ["b"]) :=
  ⟨by decide, by decide, by decide, by decide,
   compatCs_cons (by exact trivial) (compatCs_nil _), by decide, rfl,
   full_incremental_preserve_counterpartless 1 [("a", FSNode.file 1 1 0)]
     [("b", FSNode.file 2 2 0)] (by decide) (by decide) (by decide) (by decide)
     (compatCs_cons (by exact trivial) (compatCs_nil _)) (by decide)
     ["b"] rfl⟩

/-- C1 amended.  Mirror convergence holds for link-free, duplicate-free,
kind-compatible trees: the mirror run completes with the pruned
synchronized contents, and the set of regular files under the resulting
destination, by relative path, equals the set of regular files under the
source — in particular destination-only files are gone and source-only
files are present.  (The counterexample shows the claim fails for an
arbitrary initial destination: a file-versus-directory kind conflict
survives the run with differing file sets.) -/
theorem mirror_converges_on_compatible_trees (fuel : Nat) (scs dcs : Cs)
    (hlfS : linkFreeCs scs = true) (hndS : nodupCs scs = true)
    (hlfD : linkFreeCs dcs = true) (hndD : nodupCs dcs = true)
    (hc : compatCs scs dcs = true)
    (hdepS : depthCs scs < fuel) (hdepD : depthCs dcs < fuel) :
    ∃ evs, performMirror fuel scs (some (.dir dcs)) =
        .ok (.dir (pruneSpecCs (some (.dir scs)) (syncCsM scs dcs)), evs) ∧
      ∀ p : FPath,
        fileAtN (.dir (pruneSpecCs (some (.dir scs)) (syncCsM scs dcs))) p =
          fileAtN (.dir scs) p := by
  obtain ⟨evs1, hrun1, hlf1, hnd1, _⟩ :=
    copyDir_syncM fuel scs dcs [] [] (some (.dir dcs))
      rfl hlfS hndS hlfD hndD hc hdepS
  have hdep1 : depthCs (syncCsM scs dcs) < fuel := by
    have := depthCs_syncCsM_le scs dcs
    omega
  obtain ⟨evs2, hrun2, _⟩ :=
    pruneDir_spec fuel (syncCsM scs dcs) [] (some (.dir scs)) hlf1 hnd1 hdep1
  refine ⟨evs1 ++ evs2, ?_,
    fileAt_mirror_converges scs dcs hlfS hndS hlfD hndD hc⟩
  have hstep : performMirror fuel scs (some (.dir dcs)) =
      (pruneDir fuel [] (some (.dir scs)) (syncCsM scs dcs)).bind
        (fun p2 => Except.ok (.dir p2.1, evs1 ++ p2.2)) := by
    unfold performMirror
    rw [hrun1]
    rfl
  rw [hstep, hrun2]
  rfl

theorem mirror_converges_on_compatible_trees_witness :
    linkFreeCs [("a", FSNode.file 1 1 0)] = true ∧
    nodupCs [("a", FSNode.file 1 1 0)] = true ∧
    linkFreeCs [("b", FSNode.file 2 2 0)] = true ∧
    nodupCs [("b", FSNode.file 2 2 0)] = true ∧
    compatCs [("a", FSNode.file 1 1 0)] [("b", FSNode.file 2 2 0)] = true ∧
    depthCs [("a", FSNode.file 1 1 0)] < 1 ∧
    depthCs [("b", FSNode.file 2 2 0)] < 1 ∧
    (∃ evs, performMirror 1 [("a", FSNode.file 1 1 0)]
          (some (.dir [("b", FSNode.file 2 2 0)])) =
        .ok (.dir (pruneSpecCs (some (.dir [("a", FSNode.file 1 1 0)]))
          (syncCsM [("a", FSNode.file 1 1 0)] [("b", FSNode.file 2 2 0)])),
          evs) ∧
      ∀ p : FPath,
        fileAtN (.dir (pruneSpecCs (some (.dir [("a", FSNode.file 1 1 0)]))
            (syncCsM [("a", FSNode.file 1 1 0)] [("b", FSNode.file 2 2 0)])))
            p =
          fileAtN (.dir [("a", FSNode.file 1 1 0)]) p) :=
  ⟨by decide, by decide, by decide, by decide,
   compatCs_cons (by exact trivial) (compatCs_nil _), by decide, by decide,
   mirror_converges_on_compatible_trees 1 [("a", FSNode.file 1 1 0)]
     [("b", FSNode.file 2 2 0)] (by decide) (by decide) (by decide) (by decide)
     (compatCs_cons (by exact trivial) (compatCs_nil _)) (by decide)
     (by decide)⟩

end BackupCLI
